import Mathlib

/-!
Verification development for the figma-token-sync token engine.

The embedding models the JavaScript/TypeScript source:
  - `src/plugin/src/plugin/transformers/sd-to-figma.ts` (flattenTokens, isToken,
    resolveTokenReferences)
  - `src/plugin/src/plugin/transformers/figma-to-sd.ts` (setNestedValue,
    generateChangeSummary and its local flatten helper)
  - `src/unnamed/part_001` (deepMerge, detectMultiBrandStructure)
  - `src/plugin/src/plugin/figma-api/variables.ts` (parseColor, rgbaToHex)

JavaScript values are modelled by the mutual inductive `JVal`/`JArr`/`JObj`:
an object is an insertion-ordered association list (keys unique in every value
produced by the JS runtime), arrays are lists, numbers are rationals (the
claims under study only exercise exact arithmetic on the k/255 grid, where
IEEE doubles and rationals agree after rounding to the nearest byte).
-/

namespace FTS

mutual
/-- JavaScript value, as produced by JSON.parse: string, number, boolean,
null, array, or insertion-ordered object. -/
inductive JVal where
  | str : String → JVal
  | num : ℚ → JVal
  | boolean : Bool → JVal
  | jnull : JVal
  | arr : JArr → JVal
  | obj : JObj → JVal
  deriving DecidableEq

inductive JArr where
  | nil : JArr
  | cons : JVal → JArr → JArr
  deriving DecidableEq

inductive JObj where
  | nil : JObj
  | cons : String → JVal → JObj → JObj
  deriving DecidableEq
end

namespace JObj

/-- Property lookup `o[k]` on a JS object: first (only) matching key. -/
def get : JObj → String → Option JVal
  | .nil, _ => none
  | .cons k v rest, key => if k = key then some v else get rest key

/-- Property assignment `o[k] = v` on a JS object: updates the existing key
in place (keeping its position) or appends a new key at the end. -/
def set : JObj → String → JVal → JObj
  | .nil, key, v => .cons key v .nil
  | .cons k w rest, key, v =>
      if k = key then .cons k v rest else .cons k w (set rest key v)

/-- Keys of the object, in insertion order. -/
def keys : JObj → List String
  | .nil => []
  | .cons k _ rest => k :: keys rest

/-- Number of entries. -/
def length : JObj → Nat
  | .nil => 0
  | .cons _ _ rest => length rest + 1

end JObj

namespace JArr

def length : JArr → Nat
  | .nil => 0
  | .cons _ rest => length rest + 1

def get? : JArr → Nat → Option JVal
  | .nil, _ => none
  | .cons v _, 0 => some v
  | .cons _ rest, n + 1 => get? rest n

end JArr

/-- `value && ...`: JS truthiness of a value. Objects and arrays are always
truthy; `""`, `0`, `false` and `null` are falsy. -/
def JVal.truthy : JVal → Bool
  | .str s => s ≠ ""
  | .num q => q ≠ 0
  | .boolean b => b
  | .jnull => false
  | .arr _ => true
  | .obj _ => true

/-- `String.prototype.split(sep)` on character lists: `"".split(sep)` is
`[""]`, separators at the ends produce empty segments. -/
def splitChars (sep : Char) : List Char → List (List Char)
  | [] => [[]]
  | c :: rest =>
    if c = sep then [] :: splitChars sep rest
    else
      match splitChars sep rest with
      | [] => [[c]]
      | h :: t => (c :: h) :: t

/-- JS `s.split(sep)` for a single-character separator. -/
def jsSplit (sep : Char) (s : String) : List String :=
  (splitChars sep s.data).map (fun l => String.mk l)

/-- JS `s.includes(sub)`: substring containment. -/
def jsIncludes (s sub : String) : Bool := decide (sub.data <:+: s.data)

/-- JS `s.toLowerCase()` (ASCII, which is all the classifier compares). -/
def jsToLower (s : String) : String := String.mk (s.data.map Char.toLower)

/-- One record emitted by `flattenTokens` in sd-to-figma.ts: the token's
slash-joined path, its `value`, and its `type`/`comment` fields when the
source object defined them. -/
structure FlatToken where
  path : String
  value : JVal
  type : Option JVal
  comment : Option JVal
  deriving DecidableEq

/-- `isToken` from sd-to-figma.ts: a truthy object with a `value` key.
Arrays never have a `value` own-property; `null` is falsy. -/
def isToken : JVal → Bool
  | .obj o => (o.get "value").isSome
  | _ => false

/-- `const path = prefix ? prefix + "/" + key : key` from `flattenTokens`. -/
def mkPath (pfx key : String) : String :=
  if pfx ≠ "" then pfx ++ "/" ++ key else key

mutual
/-- The loop body of `flattenTokens` for one child value: a child
recognized by `isToken` (an object with a `value` key) emits one record;
any other child is recursed into via `Object.entries`. `Object.entries`
of an array yields its index/element pairs; of a number or boolean it
yields nothing (likewise for `null` — where the JS would throw — and for
a string — where the JS would recurse forever over 1-character strings;
no claim exercises those two dead corners). -/
def childRecords : JVal → String → List FlatToken
  | .obj o, path =>
      (match o.get "value" with
       | some w => [⟨path, w, o.get "type", o.get "comment"⟩]
       | none => flattenTokens o path)
  | .arr a, path => flattenArr a 0 path
  | _, _ => []

/-- `flattenTokens` from sd-to-figma.ts: depth-first walk over
`Object.entries`, emitting leaf records in traversal order. -/
def flattenTokens : JObj → String → List FlatToken
  | .nil, _ => []
  | .cons key v rest, pfx =>
      childRecords v (mkPath pfx key) ++ flattenTokens rest pfx

def flattenArr : JArr → Nat → String → List FlatToken
  | .nil, _, _ => []
  | .cons v rest, i, pfx =>
      childRecords v (mkPath pfx (Nat.repr i)) ++ flattenArr rest (i + 1) pfx
end

/-- `setNestedValue` from figma-to-sd.ts, after the path has been split on
`/`: walk/create objects along the leading segments, then assign at the
last segment. A falsy existing child is replaced by `{}` (the `!current[part]`
test); a truthy non-object child leaves the tree unchanged in this model
(the JS would silently no-op or attach properties to a primitive/array —
dead under every claim). An empty segment list models `parts[-1]`, i.e.
assignment at the key `"undefined"`. -/
def setSegs : JObj → List String → JVal → JObj
  | o, [], v => o.set "undefined" v
  | o, [last], v => o.set last v
  | o, part :: rest, v =>
      match o.get part with
      | some (.obj c) => o.set part (.obj (setSegs c rest v))
      | some w => if w.truthy then o else o.set part (.obj (setSegs .nil rest v))
      | none => o.set part (.obj (setSegs .nil rest v))

/-- `setNestedValue(obj, path, value)` from figma-to-sd.ts. -/
def setNestedValue (o : JObj) (path : String) (v : JVal) : JObj :=
  setSegs o (jsSplit '/' path) v

/-- The `{value, type?, comment?}` node rebuilt from one flat record, the
`type`/`comment` keys present exactly when the flattened token defined
them. -/
def recordNode (r : FlatToken) : JVal :=
  .obj (.cons "value" r.value
    (match r.type, r.comment with
     | some t, some c => .cons "type" t (.cons "comment" c .nil)
     | some t, none => .cons "type" t .nil
     | none, some c => .cons "comment" c .nil
     | none, none => .nil))

/-- One step of the unflatten fold: set the rebuilt `{value, type?,
comment?}` node at the record's path. -/
def unflattenStep (acc : JObj) (r : FlatToken) : JObj :=
  setNestedValue acc r.path (recordNode r)

/-- `unflattenAll`: fold `setNestedValue` over the flat records into an
empty tree (the round-trip direction named in the specification). -/
def unflattenAll (records : List FlatToken) : JObj :=
  records.foldl unflattenStep .nil

/-! ### Well-formedness for the round-trip law

The round-trip law cannot hold for every unambiguous tree: an empty Group
flattens to nothing, a key containing `/` is split apart on unflattening,
an empty key collides with the top-level prefix test, and a Group owning a
`value` key is mistaken for a Leaf by `isToken`.  The predicates below
carve out the trees on which the law does hold: Groups are non-empty, hold
no `value` key, have unique, non-empty, slash-free keys, and Leafs carry
their fields in the `value`, `type?`, `comment?` order that unflattening
rebuilds. -/

/-- A usable path segment: non-empty and slash-free. -/
def goodSeg (k : String) : Bool :=
  k ≠ "" && !(decide ('/' ∈ k.data))

/-- All segments usable. -/
def goodSegs (ps : List String) : Bool :=
  ps.all goodSeg

/-- The tail of a canonical Leaf object after its `value` entry: nothing,
`type`, `comment`, or `type` then `comment`. -/
def restShape : JObj → Bool
  | .nil => true
  | .cons k _ .nil => k = "type" || k = "comment"
  | .cons k _ (.cons k2 _ .nil) => k = "type" && k2 = "comment"
  | _ => false

/-- A canonical Leaf: `{value, type?, comment?}` in that key order. -/
def leafShape : JVal → Bool
  | .obj (.cons k _ rest) => k = "value" && restShape rest
  | _ => false

mutual
/-- Well-formed token tree (a Group's children). -/
def wfTokens : JObj → Bool
  | .nil => true
  | .cons k v rest =>
      goodSeg k && !(decide (k ∈ rest.keys)) && wfChild v && wfTokens rest

/-- Well-formed child: a canonical Leaf, or a non-empty Group without a
`value` key whose children are again well-formed. -/
def wfChild : JVal → Bool
  | .obj o =>
      leafShape (.obj o) ||
      ((o.get "value").isNone &&
        (match o with | .nil => false | _ => true) && wfTokens o)
  | _ => false
end

/-- Dot- or slash-joined path segments. -/
def joinPath : List String → String
  | [] => ""
  | [p] => p
  | p :: rest => p ++ "/" ++ joinPath rest

/-- Lookup of a child object, as `setNestedValue`'s walk sees it:
anything that is not an object is treated as an empty one. -/
def childObj (o : JObj) (p : String) : JObj :=
  match o.get p with
  | some (.obj c) => c
  | _ => .nil

/-- Grafting a value at a (non-empty) segment path, forcing objects along
the way.  On fresh paths this coincides with `setSegs`. -/
def insertTree : JObj → List String → JVal → JObj
  | o, [], v => o.set "undefined" v
  | o, [last], v => o.set last v
  | o, part :: rest, v => o.set part (.obj (insertTree (childObj o part) rest v))

/-- A path is fresh in `o`: descending along it meets only objects until
some segment is absent (everything below it is still to be created), and
in particular the full path is not yet occupied. -/
def freshPath : JObj → List String → Bool
  | _, [] => false
  | o, [p] => (o.get p).isNone
  | o, p :: rest =>
      match o.get p with
      | some (.obj c) => freshPath c rest
      | some _ => false
      | none => true

/-- Set each entry of `src` into `dst` in order (the shape the unflatten
fold produces for a Group's children). -/
def extendObj : JObj → JObj → JObj
  | dst, .nil => dst
  | dst, .cons k v rest => extendObj (dst.set k v) rest

/-- Plain concatenation of entry lists. -/
def jappend : JObj → JObj → JObj
  | .nil, o => o
  | .cons k v rest, o => .cons k v (jappend rest o)

/-- Pairwise-distinct keys. -/
def keysNoDup : JObj → Bool
  | .nil => true
  | .cons k _ rest => !(decide (k ∈ rest.keys)) && keysNoDup rest

/-- The `value` payload of a canonical Leaf (its first entry). -/
def leafVal : JObj → JVal
  | .nil => .jnull
  | .cons _ w _ => w

/-- Lookup along a segment path, descending only through objects. -/
def lookPath : JObj → List String → Option JVal
  | _, [] => none
  | o, [p] => o.get p
  | o, p :: rest =>
      match o.get p with
      | some (.obj c) => lookPath c rest
      | _ => none

/-! ### deepMerge (src/unnamed/part_001, shared/multi-brand-utils) -/

mutual
/-- `deepMerge(target, source)`: for each source key, a truthy non-array
object is merged recursively into the target's entry (a falsy target
entry is first replaced by `{}`); any other source value is assigned
wholesale.  Entries are processed in source order. -/
def deepMerge : JObj → JObj → JObj
  | t, .nil => t
  | t, .cons k v rest => deepMerge (mergeEntry t k v) rest

/-- One iteration of `deepMerge`'s `for (const key in source)` loop.  When
the target entry is a truthy non-object (primitive or array) and the
source entry is an object, the JS recursion mutates nothing representable
(property writes on a primitive are silent no-ops; writes on an array
attach ad-hoc properties outside the array's elements), so the target is
left unchanged in this model — a corner no claim exercises. -/
def mergeEntry : JObj → String → JVal → JObj
  | t, k, .obj s =>
      (match t.get k with
       | some (.obj c) => t.set k (.obj (deepMerge c s))
       | some w => if w.truthy then t else t.set k (.obj (deepMerge .nil s))
       | none => t.set k (.obj (deepMerge .nil s)))
  | t, k, v => t.set k v
end

/-! ### Reference resolver (sd-to-figma.ts, resolveTokenReferences) -/

/-- JS line terminators, which `.` in a regex does not match. -/
def isLineTerm (c : Char) : Bool :=
  c = '\n' || c = '\r' || c = Char.ofNat 0x2028 || c = Char.ofNat 0x2029

/-- `tokens.match(/^\{(.+)\}$/)`: the whole string is `{` core `}` with a
non-empty core free of line terminators; returns the core. -/
def refInner? (s : String) : Option String :=
  match s.data with
  | '{' :: rest =>
      if rest.getLast? = some '}' ∧ rest.dropLast ≠ [] ∧
          (∀ c ∈ rest.dropLast, isLineTerm c = false) then
        some (String.mk rest.dropLast)
      else none
  | _ => none

/-- `part in value` for a truthy `typeof value === 'object'` value: an
object's own key, or an array's `length` / canonical in-range index. -/
def hasPart : JVal → String → Bool
  | .obj o, part => (o.get part).isSome
  | .arr a, part =>
      part = "length" ||
        (match part.toNat? with
         | some i => decide (i < a.length) && Nat.repr i = part
         | none => false)
  | _, _ => false

/-- `value[part]` where `hasPart` holds. -/
def getPart : JVal → String → JVal
  | .obj o, part => (o.get part).getD .jnull
  | .arr a, part =>
      if part = "length" then .num a.length
      else (a.get? (part.toNat?.getD 0)).getD .jnull
  | _, _ => .jnull

/-- The reference-path walk in `resolveTokenReferences`: descend from the
root one segment at a time, failing if any segment is missing. -/
def navigate : JVal → List String → Option JVal
  | v, [] => some v
  | v, part :: rest =>
      if hasPart v part then navigate (getPart v part) rest else none

mutual
/-- `resolveTokenReferences(tokens, rootTokens)`, with an explicit fuel
bound standing in for the JS call stack (the source function has no cycle
guard and can recurse forever; `none` means the bound was exhausted).
The second result component collects the `console.warn` messages in
emission order. -/
def resolveFuel : Nat → JVal → JVal → Option (JVal × List String)
  | 0, _, _ => none
  | n + 1, .str s, root =>
      (match refInner? s with
       | some path =>
         (match navigate root (jsSplit '.' path) with
          | some w => resolveFuel n w root
          | none => some (.str s, ["Token reference not found: " ++ path]))
       | none => some (.str s, []))
  | n + 1, .arr a, root =>
      (match resolveArrFuel n a root with
       | some (a', ws) => some (.arr a', ws)
       | none => none)
  | n + 1, .obj o, root =>
      (match resolveObjFuel n o root with
       | some (o', ws) => some (.obj o', ws)
       | none => none)
  | _ + 1, v, _ => some (v, [])

def resolveArrFuel : Nat → JArr → JVal → Option (JArr × List String)
  | 0, _, _ => none
  | _ + 1, .nil, _ => some (.nil, [])
  | n + 1, .cons v rest, root =>
      (match resolveFuel n v root, resolveArrFuel n rest root with
       | some (v', w1), some (rest', w2) => some (.cons v' rest', w1 ++ w2)
       | _, _ => none)

def resolveObjFuel : Nat → JObj → JVal → Option (JObj × List String)
  | 0, _, _ => none
  | _ + 1, .nil, _ => some (.nil, [])
  | n + 1, .cons k v rest, root =>
      (match resolveFuel n v root, resolveObjFuel n rest root with
       | some (v', w1), some (rest', w2) => some (.cons k v' rest', w1 ++ w2)
       | _, _ => none)
end

mutual
/-- No string anywhere in the value matches the reference pattern. -/
def noRefs : JVal → Bool
  | .str s => (refInner? s).isNone
  | .arr a => noRefsArr a
  | .obj o => noRefsObj o
  | _ => true

def noRefsArr : JArr → Bool
  | .nil => true
  | .cons v rest => noRefs v && noRefsArr rest

def noRefsObj : JObj → Bool
  | .nil => true
  | .cons _ v rest => noRefs v && noRefsObj rest
end

mutual
/-- Fuel sufficient for the resolver to walk a reference-free value. -/
def fuelNeeded : JVal → Nat
  | .arr a => fuelNeededArr a + 1
  | .obj o => fuelNeededObj o + 1
  | _ => 1

def fuelNeededArr : JArr → Nat
  | .nil => 1
  | .cons v rest => max (fuelNeeded v) (fuelNeededArr rest) + 1

def fuelNeededObj : JObj → Nat
  | .nil => 1
  | .cons _ v rest => max (fuelNeeded v) (fuelNeededObj rest) + 1
end

/-! ### Structure classifier (src/unnamed/part_001, detectMultiBrandStructure) -/

structure BrandInfo where
  name : String
  path : String
  files : List String
  deriving DecidableEq

structure MultiBrandStructure where
  brands : List BrandInfo
  globalFiles : List String
  baseFiles : List String
  deriving DecidableEq

/-- The alternation `brands?|themes?|variants?` in trial order: each `s?`
is greedy, so the plural form is tried before the singular. -/
def brandWords : List String :=
  ["brands", "brand", "themes", "theme", "variants", "variant"]

/-- The reserved exclusion set of `detectMultiBrandStructure`. -/
def excludedNames : List String :=
  ["globals", "global", "base", "core", "palette", "foundation",
   "primitives", "common"]

/-- Try `/(word)/([^\/]+)\//` at the head of `l` for one alternation
word; returns (whole match, capture 2). -/
def tryBrandWord (rest : List Char) (w : String) :
    Option (List Char × List Char) :=
  if w.data.isPrefixOf rest then
    match rest.drop w.data.length with
    | '/' :: rest2 =>
        let seg := rest2.takeWhile (· ≠ '/')
        if seg ≠ [] ∧ (rest2.drop seg.length).head? = some '/' then
          some ('/' :: (w.data ++ '/' :: (seg ++ ['/'])), seg)
        else none
    | _ => none
  else none

/-- Match `\/(brands?|themes?|variants?)\/([^\/]+)\//` at the head. -/
def matchBrandFolderAt (l : List Char) : Option (List Char × List Char) :=
  match l with
  | '/' :: rest => brandWords.findSome? (tryBrandWord rest)
  | _ => none

/-- Leftmost match of the brand-folder pattern. -/
def findBrandFolder : List Char → Option (List Char × List Char)
  | [] => none
  | c :: rest =>
      match matchBrandFolderAt (c :: rest) with
      | some r => some r
      | none => findBrandFolder rest

/-- Match `\/tokens\/([^\/]+)\//` at the head. -/
def matchTokensAt (l : List Char) : Option (List Char × List Char) :=
  if "/tokens/".data.isPrefixOf l then
    let rest2 := l.drop 8
    let seg := rest2.takeWhile (· ≠ '/')
    if seg ≠ [] ∧ (rest2.drop seg.length).head? = some '/' then
      some ("/tokens/".data ++ (seg ++ ['/']), seg)
    else none
  else none

/-- Leftmost match of `\/tokens\/([^\/]+)\//`. -/
def findTokensFolder : List Char → Option (List Char × List Char)
  | [] => none
  | c :: rest =>
      match matchTokensAt (c :: rest) with
      | some r => some r
      | none => findTokensFolder rest

/-- Match the anchored `^([^\/]+)\/tokens\//`. -/
def matchLeadingBrand (l : List Char) : Option (List Char × List Char) :=
  let seg := l.takeWhile (· ≠ '/')
  if seg ≠ [] ∧ "/tokens/".data.isPrefixOf (l.drop seg.length) then
    some (seg ++ "/tokens/".data, seg)
  else none

/-- Match the anchored `^tokens\/([^\/]+)\//`. -/
def matchLeadingTokens (l : List Char) : Option (List Char × List Char) :=
  if "tokens/".data.isPrefixOf l then
    let rest2 := l.drop 7
    let seg := rest2.takeWhile (· ≠ '/')
    if seg ≠ [] ∧ (rest2.drop seg.length).head? = some '/' then
      some ("tokens/".data ++ (seg ++ ['/']), seg)
    else none
  else none

/-- The `brandMatch` chain of `detectMultiBrandStructure` (with the
default brand-folder patterns, i.e. no custom `brandFolderPattern`):
returns (match[0], the candidate brand name). -/
def brandMatch (path : String) : Option (String × String) :=
  (match findBrandFolder path.data with
   | some (whole, seg) => some (String.mk whole, String.mk seg)
   | none =>
     match findTokensFolder path.data with
     | some (whole, seg) => some (String.mk whole, String.mk seg)
     | none =>
       match matchLeadingBrand path.data with
       | some (whole, seg) => some (String.mk whole, String.mk seg)
       | none =>
         match matchLeadingTokens path.data with
         | some (whole, seg) => some (String.mk whole, String.mk seg)
         | none => none)

/-- Where one input path goes. -/
inductive FileClass where
  | global : FileClass
  | base : FileClass
  | brand : String → String → FileClass
  | dropped : FileClass
  deriving DecidableEq

/-- The per-path branch structure of `detectMultiBrandStructure`'s loop:
the safety check drops falsy paths (the empty string), then the
global-pattern test, the base-pattern test, the brand match with the
exclusion set, and the default-to-global fallback, in source order. -/
def classifyPath (path : String) : FileClass :=
  if path = "" then .dropped
  else if jsIncludes path "/globals/" || jsIncludes path "globals.json" ||
      jsIncludes path "/global/" || jsIncludes path "global.json" then
    .global
  else if jsIncludes path "/base/" || jsIncludes path "base.json" ||
      jsIncludes path "/core/" || jsIncludes path "core.json" ||
      jsIncludes path "/palette/" || jsIncludes path "palette.json" then
    .base
  else
    match brandMatch path with
    | some (whole, name) =>
        if jsToLower name ∈ excludedNames then .global else .brand name whole
    | none => .global

/-- `brands.get(brandName)!.files.push(path)`, creating the entry on
first sight (insertion order preserved, `path` of the entry fixed at
creation). -/
def addBrandFile : List BrandInfo → String → String → String → List BrandInfo
  | [], name, whole, path => [⟨name, whole, [path]⟩]
  | b :: rest, name, whole, path =>
      if b.name = name then ⟨b.name, b.path, b.files ++ [path]⟩ :: rest
      else b :: addBrandFile rest name whole path

/-- One loop iteration of `detectMultiBrandStructure`. -/
def detectStep (st : MultiBrandStructure) (path : String) :
    MultiBrandStructure :=
  match classifyPath path with
  | .dropped => st
  | .global => { st with globalFiles := st.globalFiles ++ [path] }
  | .base => { st with baseFiles := st.baseFiles ++ [path] }
  | .brand name whole => { st with brands := addBrandFile st.brands name whole path }

/-- `detectMultiBrandStructure(tokenFiles)` with the default brand-folder
patterns. -/
def detectMultiBrandStructure (tokenFiles : List String) : MultiBrandStructure :=
  tokenFiles.foldl detectStep ⟨[], [], []⟩

/-- All classified path occurrences, across the three buckets. -/
def allBucketEntries (st : MultiBrandStructure) : List String :=
  st.globalFiles ++ st.baseFiles ++ (st.brands.map (·.files)).flatten

/-! ### Change summarizer (figma-to-sd.ts, generateChangeSummary) -/

/-- `Map.prototype.set`: update an existing key in place, else append. -/
def mapSet (m : List (String × JVal)) (k : String) (v : JVal) :
    List (String × JVal) :=
  match m with
  | [] => [(k, v)]
  | (k0, v0) :: rest =>
      if k0 = k then (k0, v) :: rest else (k0, v0) :: mapSet rest k v

/-- `Map.prototype.get`/`has`. -/
def mapGet (m : List (String × JVal)) (k : String) : Option JVal :=
  match m with
  | [] => none
  | (k0, v0) :: rest => if k0 = k then some v0 else mapGet rest k

/-- `nested.forEach((v, k) => result.set(k, v))`. -/
def mapSetAll (res : List (String × JVal)) (entries : List (String × JVal)) :
    List (String × JVal) :=
  entries.foldl (fun m kv => mapSet m kv.1 kv.2) res

mutual
/-- The per-child contribution of the local `flattenTokens` helper of
`generateChangeSummary`: a child object carrying a `value` key maps its
dot path to the whole node; any other object or array is recursed into;
scalars and `null` contribute nothing. -/
def childDotEntries : JVal → String → List (String × JVal)
  | .obj o, path =>
      if (o.get "value").isSome then [(path, .obj o)]
      else flattenDot o path
  | .arr a, path => flattenDotArrRes a 0 path []
  | _, _ => []
termination_by v _ => (sizeOf v, 0)

/-- The local `flattenTokens` helper of `generateChangeSummary`: builds a
`path → Leaf node` map with dot-joined paths by `Map.set`-ing each
child's entries left to right. -/
def flattenDot (tokens : JObj) (pfx : String) : List (String × JVal) :=
  flattenDotAux tokens pfx []
termination_by (sizeOf tokens, 1)

def flattenDotAux : JObj → String → List (String × JVal) →
    List (String × JVal)
  | .nil, _, res => res
  | .cons key v rest, pfx, res =>
      flattenDotAux rest pfx
        (mapSetAll res
          (childDotEntries v (if pfx ≠ "" then pfx ++ "." ++ key else key)))
termination_by o _ _ => (sizeOf o, 0)

/-- The same walk over an array's `Object.entries` (index/element
pairs). -/
def flattenDotArrRes : JArr → Nat → String → List (String × JVal) →
    List (String × JVal)
  | .nil, _, _, res => res
  | .cons v rest, i, pfx, res =>
      flattenDotArrRes rest (i + 1) pfx
        (mapSetAll res
          (childDotEntries v
            (if pfx ≠ "" then pfx ++ "." ++ Nat.repr i else Nat.repr i)))
termination_by a _ _ _ => (sizeOf a, 0)
end

/-- The three change lists of `generateChangeSummary`. -/
structure ChangeSummary where
  added : List String
  modified : List String
  removed : List String
  deriving DecidableEq

/-- `generateChangeSummary(oldTokens, newTokens)`: one pass over the new
flat map pushing into `added`/`modified`, then one pass over the old flat
map pushing into `removed`.  The JS compares serialized Leafs
(`JSON.stringify`); on this model serialization equality is structural
equality. -/
def generateChangeSummary (oldTokens newTokens : JObj) : ChangeSummary :=
  let oldFlat := flattenDot oldTokens ""
  let newFlat := flattenDot newTokens ""
  let am := newFlat.foldl
    (fun (acc : List String × List String) pv =>
      match mapGet oldFlat pv.1 with
      | none => (acc.1 ++ [pv.1], acc.2)
      | some w => if w ≠ pv.2 then (acc.1, acc.2 ++ [pv.1]) else acc)
    ([], [])
  let removed := oldFlat.foldl
    (fun acc pv => if (mapGet newFlat pv.1).isSome then acc else acc ++ [pv.1])
    []
  ⟨am.1, am.2, removed⟩

/-- The change summary as the specification words it: `added` = new paths
absent from the old map, `modified` = shared paths whose Leafs differ,
`removed` = old paths absent from the new map, each in the respective
traversal order. -/
def changeSummarySpec (oldTokens newTokens : JObj) : ChangeSummary :=
  let oldFlat := flattenDot oldTokens ""
  let newFlat := flattenDot newTokens ""
  ⟨(newFlat.filter (fun pv => (mapGet oldFlat pv.1).isNone)).map Prod.fst,
   (newFlat.filter (fun pv =>
      match mapGet oldFlat pv.1 with
      | some w => w ≠ pv.2
      | none => false)).map Prod.fst,
   (oldFlat.filter (fun pv => (mapGet newFlat pv.1).isNone)).map Prod.fst⟩

/-! ### Color codec (figma-api/variables.ts, rgbaToHex / parseColor)

Channel values are modelled as rationals.  On the k/255 grid named by the
round-trip claim, IEEE-double evaluation of `k/255 * 255` rounds to `k`
exactly, so the rational model agrees with the JS arithmetic there. -/

structure RGBA where
  r : ℚ
  g : ℚ
  b : ℚ
  a : ℚ
  deriving DecidableEq

/-- `Math.round`: round half toward positive infinity. -/
def jsRound (q : ℚ) : ℤ := ⌊q + 1 / 2⌋

/-- `n.toString(16)` (lowercase digits; a leading `-` for negatives). -/
def intToHexStr (i : ℤ) : String :=
  if i < 0 then "-" ++ String.mk (Nat.toDigits 16 i.natAbs)
  else String.mk (Nat.toDigits 16 i.toNat)

/-- `.padStart(2, '0')`. -/
def padStart2 (s : String) : String :=
  if s.length = 0 then "00" else if s.length = 1 then "0" ++ s else s

/-- `rgbaToHex(rgba)`: round each channel to a byte, format as
`#rrggbb`, appending the alpha byte only when `a < 1`. -/
def rgbaToHex (c : RGBA) : String :=
  let r := padStart2 (intToHexStr (jsRound (c.r * 255)))
  let g := padStart2 (intToHexStr (jsRound (c.g * 255)))
  let b := padStart2 (intToHexStr (jsRound (c.b * 255)))
  if c.a < 1 then
    "#" ++ r ++ g ++ b ++ padStart2 (intToHexStr (jsRound (c.a * 255)))
  else
    "#" ++ r ++ g ++ b

/-- The whitespace set stripped by `trim` and skipped by `parseInt`
(ASCII whitespace; the Unicode space classes never occur in the claims'
inputs). -/
def isJsSpace (c : Char) : Bool :=
  c = ' ' || c = '\t' || c = '\n' || c = '\r' ||
    c = Char.ofNat 0x0b || c = Char.ofNat 0x0c

/-- `String.prototype.trim`. -/
def jsTrim (s : String) : String :=
  String.mk (((s.data.dropWhile isJsSpace).reverse.dropWhile isJsSpace).reverse)

def isDigitChar (c : Char) : Bool := '0' ≤ c && c ≤ '9'

def isHexDigitChar (c : Char) : Bool :=
  ('0' ≤ c && c ≤ '9') || ('a' ≤ c && c ≤ 'f') || ('A' ≤ c && c ≤ 'F')

def hexVal (c : Char) : Nat :=
  if c ≤ '9' then c.toNat - 48 else if c ≤ 'F' then c.toNat - 55
  else c.toNat - 87

def digitsToNat (base : Nat) (l : List Char) : Nat :=
  l.foldl (fun acc c => acc * base + hexVal c) 0

/-- `parseInt(s, 16)`: leading whitespace, an optional sign, an optional
`0x`/`0X` prefix, then the maximal run of hex digits; `none` models
`NaN`. -/
def jsParseIntHex (s : String) : Option ℤ :=
  let l := s.data.dropWhile isJsSpace
  let (sign, l1) : ℤ × List Char :=
    match l with
    | '-' :: r => (-1, r)
    | '+' :: r => (1, r)
    | _ => (1, l)
  let l2 :=
    match l1 with
    | '0' :: 'x' :: r => r
    | '0' :: 'X' :: r => r
    | _ => l1
  let digits := l2.takeWhile isHexDigitChar
  if digits = [] then none else some (sign * (digitsToNat 16 digits : ℕ))

/-- `parseFloat` restricted to `[\d.]+` captures: the maximal prefix
`\d*\.?\d*` containing at least one digit; `none` models `NaN`. -/
def jsParseFloatFrac (l : List Char) : Option ℚ :=
  let intPart := l.takeWhile isDigitChar
  let rest := l.drop intPart.length
  match rest with
  | '.' :: r2 =>
      let frac := r2.takeWhile isDigitChar
      if intPart = [] ∧ frac = [] then none
      else some ((digitsToNat 10 intPart : ℕ) +
        (digitsToNat 10 frac : ℕ) / ((10 : ℚ) ^ frac.length))
  | _ =>
      if intPart = [] then none
      else some ((digitsToNat 10 intPart : ℕ) : ℚ)

/-- Skip `\s*`. -/
def skipSpace (l : List Char) : List Char := l.dropWhile isJsSpace

/-- Parse `\s*(\d+)\s*` followed by the given separator character. -/
def parseChannelThen (sep : Char) (l : List Char) : Option (Nat × List Char) :=
  let l1 := skipSpace l
  let ds := l1.takeWhile isDigitChar
  if ds = [] then none
  else
    match skipSpace (l1.drop ds.length) with
    | c :: rest => if c = sep then some (digitsToNat 10 ds, rest) else none
    | [] => none

/-- Try the `rgba?\(...\)` body at the head of `l` (after `rgb`):
optional `a`, `(`, three integer channels, an optional `,`-separated
`[\d.]+` alpha, `)`.  A captured alpha whose `parseFloat` is `NaN` is
modelled as a failed match (the JS would produce a `NaN` channel; dead
under every claim). -/
def matchRgbTail (rest : List Char) : Option RGBA :=
  let afterParen : Option (List Char) :=
    match rest with
    | 'a' :: '(' :: r2 => some r2
    | '(' :: r2 => some r2
    | _ => none
  match afterParen with
  | none => none
  | some body =>
    match parseChannelThen ',' body with
    | none => none
    | some (n1, b1) =>
      match parseChannelThen ',' b1 with
      | none => none
      | some (n2, b2) =>
        let l1 := skipSpace b2
        let ds := l1.takeWhile isDigitChar
        if ds = [] then none
        else
          match skipSpace (l1.drop ds.length) with
          | ')' :: _ => some ⟨(n1 : ℚ) / 255, (n2 : ℚ) / 255,
              ((digitsToNat 10 ds : ℕ) : ℚ) / 255, 1⟩
          | ',' :: b3 =>
            let l2 := skipSpace b3
            let fs := l2.takeWhile (fun c => isDigitChar c || c = '.')
            if fs = [] then none
            else
              match jsParseFloatFrac fs with
              | none => none
              | some q =>
                match skipSpace (l2.drop fs.length) with
                | ')' :: _ => some ⟨(n1 : ℚ) / 255, (n2 : ℚ) / 255,
                    ((digitsToNat 10 ds : ℕ) : ℚ) / 255, q⟩
                | _ => none
          | _ => none

/-- Leftmost match of the `rgb()`/`rgba()` regex. -/
def findRgb : List Char → Option RGBA
  | [] => none
  | 'r' :: 'g' :: 'b' :: rest =>
      (match matchRgbTail rest with
       | some c => some c
       | none => findRgb ('g' :: 'b' :: rest))
  | _ :: rest => findRgb rest

/-- `parseColor(colorString)`: trim; a `#`-prefixed string expands 3-digit
shorthand and parses 6- or 8-digit hex into 0–1 channels; otherwise (or
when the hex length fits neither) fall through to the `rgb()`/`rgba()`
regex.  `none` models the JS `null` (and the dead `NaN`-channel corner,
see `matchRgbTail`). -/
def parseColor (colorString : String) : Option RGBA :=
  let color := jsTrim colorString
  match color.data with
  | '#' :: hexRaw =>
      let hex := if hexRaw.length = 3 then
          hexRaw.foldr (fun c acc => c :: c :: acc) []
        else hexRaw
      if hex.length = 6 ∨ hex.length = 8 then
        match jsParseIntHex (String.mk (hex.take 2)),
            jsParseIntHex (String.mk ((hex.drop 2).take 2)),
            jsParseIntHex (String.mk ((hex.drop 4).take 2)) with
        | some r, some g, some b =>
          if hex.length = 8 then
            match jsParseIntHex (String.mk ((hex.drop 6).take 2)) with
            | some a => some ⟨(r : ℚ) / 255, (g : ℚ) / 255, (b : ℚ) / 255,
                (a : ℚ) / 255⟩
            | none => none
          else
            some ⟨(r : ℚ) / 255, (g : ℚ) / 255, (b : ℚ) / 255, 1⟩
        | _, _, _ => none
      else findRgb color.data
  | _ => findRgb color.data

/-- The warning trace of `flattenTokens` in sd-to-figma.ts: the function
contains no warning or console emission at all, so its trace is empty for
every input — in particular for structurally ambiguous nodes. -/
def flattenWarnings : JObj → String → List String :=
  fun _ _ => []

/-- `source[key] && typeof source[key] === 'object' &&
!Array.isArray(source[key])`: the condition under which `deepMerge`
recurses instead of assigning. -/
def isMergeableObject : JVal → Bool
  | .obj _ => true
  | _ => false

/-! ### Concrete example values used in the analyses -/

/-- `{x: {y: {value: "a", comment: "keep"}}}` — merge target. -/
def exMergeA : JObj :=
  .cons "x" (.obj (.cons "y"
    (.obj (.cons "value" (.str "a") (.cons "comment" (.str "keep") .nil)))
    .nil)) .nil

/-- `{x: {y: {value: "b"}}}` — merge source. -/
def exMergeB : JObj :=
  .cons "x" (.obj (.cons "y"
    (.obj (.cons "value" (.str "b") .nil)) .nil)) .nil

/-- `{a: "{b}", b: {c: 1}, d: "{a.c}"}`: the reference `a.c` misses in
this tree (`a` is still the unresolved string), but resolves in its
resolved image. -/
def exResT : JVal :=
  .obj (.cons "a" (.str "{b}")
    (.cons "b" (.obj (.cons "c" (.num 1) .nil))
      (.cons "d" (.str "{a.c}") .nil)))

/-- The resolver's image of `exResT`: `{a: {c: 1}, b: {c: 1}, d: "{a.c}"}`. -/
def exResR : JVal :=
  .obj (.cons "a" (.obj (.cons "c" (.num 1) .nil))
    (.cons "b" (.obj (.cons "c" (.num 1) .nil))
      (.cons "d" (.str "{a.c}") .nil)))

/-- The resolver's image of `exResR`: the leftover reference now
resolves, so `d` becomes `1`. -/
def exResR2 : JVal :=
  .obj (.cons "a" (.obj (.cons "c" (.num 1) .nil))
    (.cons "b" (.obj (.cons "c" (.num 1) .nil))
      (.cons "d" (.num 1) .nil)))

/-- `{a: "{a}"}` — a self-referential root. -/
def exCyc : JVal := .obj (.cons "a" (.str "{a}") .nil)

/-- `{a: {value: "x", b: {value: "y"}}}` — the node at `a` owns both a
`value` key and a Group-shaped child. -/
def exAmbig : JObj :=
  .cons "a" (.obj (.cons "value" (.str "x")
    (.cons "b" (.obj (.cons "value" (.str "y") .nil)) .nil))) .nil

/-- A small well-formed token tree. -/
def exWf : JObj :=
  .cons "color" (.obj
    (.cons "red" (.obj (.cons "value" (.str "#f00")
      (.cons "type" (.str "color") .nil)))
    (.cons "deep" (.obj (.cons "blue"
      (.obj (.cons "value" (.str "#00f")
        (.cons "comment" (.str "sea") .nil))) .nil)) .nil))) .nil

/-! ### Basic object and path lemmas -/

@[simp] theorem JObj.get_set_self : ∀ (o : JObj) (k : String) (v : JVal),
    (o.set k v).get k = some v
  | .nil, k, v => by simp [JObj.set, JObj.get]
  | .cons k' w rest, k, v => by
      by_cases h : k' = k <;>
        simp [JObj.set, JObj.get, h, JObj.get_set_self rest k v]

theorem JObj.get_set_ne : ∀ (o : JObj) (k k' : String) (v : JVal), k ≠ k' →
    (o.set k v).get k' = o.get k'
  | .nil, k, k', v, h => by simp [JObj.set, JObj.get, h]
  | .cons k0 w rest, k, k', v, h => by
      by_cases h0 : k0 = k <;>
        simp [JObj.set, JObj.get, h0, h, JObj.get_set_ne rest k k' v h]

theorem JObj.set_set_self : ∀ (o : JObj) (k : String) (v w : JVal),
    (o.set k v).set k w = o.set k w
  | .nil, k, v, w => by simp [JObj.set]
  | .cons k0 u rest, k, v, w => by
      by_cases h0 : k0 = k <;>
        simp [JObj.set, h0, JObj.set_set_self rest k v w]

theorem JObj.set_absent : ∀ (o : JObj) (k : String) (v : JVal),
    o.get k = none → o.set k v = jappend o (.cons k v .nil)
  | .nil, k, v, _ => by simp [JObj.set, jappend]
  | .cons k0 u rest, k, v, h => by
      by_cases h0 : k0 = k
      · simp [JObj.get, h0] at h
      · simp [JObj.get, h0] at h
        simp [JObj.set, jappend, h0, JObj.set_absent rest k v h]

@[simp] theorem jappend_nil : ∀ (o : JObj), jappend o .nil = o
  | .nil => rfl
  | .cons k v rest => by simp [jappend, jappend_nil rest]

theorem jappend_assoc : ∀ (a b c : JObj),
    jappend (jappend a b) c = jappend a (jappend b c)
  | .nil, _, _ => rfl
  | .cons k v rest, b, c => by simp [jappend, jappend_assoc rest b c]

theorem extendObj_eq_jappend : ∀ (src dst : JObj), keysNoDup src = true →
    (∀ k, k ∈ src.keys → dst.get k = none) → extendObj dst src = jappend dst src
  | .nil, dst, _, _ => by simp [extendObj]
  | .cons k v rest, dst, hnd, habs => by
      simp [keysNoDup, Bool.and_eq_true] at hnd
      have hk : dst.get k = none := habs k (by simp [JObj.keys])
      have hrest : ∀ k', k' ∈ rest.keys → (dst.set k v).get k' = none := by
        intro k' hk'
        have hne : k ≠ k' := fun h => hnd.1 (h ▸ hk')
        rw [JObj.get_set_ne dst k k' v hne]
        exact habs k' (by simp [JObj.keys, hk'])
      calc extendObj dst (.cons k v rest)
          = extendObj (dst.set k v) rest := rfl
        _ = jappend (dst.set k v) rest :=
            extendObj_eq_jappend rest (dst.set k v) hnd.2 hrest
        _ = jappend (jappend dst (.cons k v .nil)) rest := by
            rw [JObj.set_absent dst k v hk]
        _ = jappend dst (.cons k v rest) := by
            rw [jappend_assoc]; rfl

theorem wf_keysNoDup : ∀ (o : JObj), wfTokens o = true → keysNoDup o = true
  | .nil, _ => rfl
  | .cons k v rest, h => by
      simp only [wfTokens, Bool.and_eq_true] at h
      obtain ⟨⟨⟨_, hmem⟩, _⟩, hrest⟩ := h
      simp only [keysNoDup, Bool.and_eq_true]
      exact ⟨hmem, wf_keysNoDup rest hrest⟩

/-! ### Split/join lemmas for slash paths -/

theorem splitChars_no_sep (sep : Char) : ∀ (l : List Char), sep ∉ l →
    splitChars sep l = [l]
  | [], _ => rfl
  | c :: rest, h => by
      have hc : c ≠ sep := fun hh => h (hh ▸ List.mem_cons_self c rest)
      have hr : sep ∉ rest := fun hh => h (List.mem_cons_of_mem c hh)
      simp [splitChars, hc, splitChars_no_sep sep rest hr]

theorem splitChars_sep_append (sep : Char) : ∀ (a rest : List Char), sep ∉ a →
    splitChars sep (a ++ sep :: rest) = a :: splitChars sep rest
  | [], rest, _ => by simp [splitChars]
  | c :: a', rest, h => by
      have hc : c ≠ sep := fun hh => h (hh ▸ List.mem_cons_self c a')
      have ha : sep ∉ a' := fun hh => h (List.mem_cons_of_mem c hh)
      have ih := splitChars_sep_append sep a' rest ha
      simp [splitChars, hc, ih]

theorem goodSeg_spec {k : String} (h : goodSeg k = true) :
    k ≠ "" ∧ '/' ∉ k.data := by
  simp [goodSeg, Bool.and_eq_true] at h
  exact ⟨h.1, h.2⟩

theorem jsSplit_joinPath : ∀ (ps : List String), ps ≠ [] → goodSegs ps = true →
    jsSplit '/' (joinPath ps) = ps
  | [], h, _ => absurd rfl h
  | [p], _, hg => by
      have hp := goodSeg_spec (by simpa [goodSegs] using hg)
      simp [joinPath, jsSplit, splitChars_no_sep '/' p.data hp.2]
  | p :: q :: rest, _, hg => by
      have hgs : goodSegs (q :: rest) = true := by
        simp [goodSegs, List.all_eq_true] at hg ⊢
        exact hg.2
      have hp : goodSeg p = true := by
        simp [goodSegs, List.all_eq_true] at hg
        exact hg.1
      have hdata :
          (joinPath (p :: q :: rest)).data =
            p.data ++ '/' :: (joinPath (q :: rest)).data := by
        show (p ++ "/" ++ joinPath (q :: rest)).data = _
        simp [String.data_append]
      have ih := jsSplit_joinPath (q :: rest) (by simp) hgs
      have hsplit := splitChars_sep_append '/' p.data
        (joinPath (q :: rest)).data (goodSeg_spec hp).2
      simp only [jsSplit] at ih
      simp only [jsSplit, hdata, hsplit, List.map_cons]
      rw [ih]

theorem joinPath_ne_empty : ∀ (ps : List String), ps ≠ [] → goodSegs ps = true →
    joinPath ps ≠ ""
  | [], h, _ => absurd rfl h
  | [p], _, hg => by
      have := (goodSeg_spec (by simpa [goodSegs] using hg)).1
      simpa [joinPath] using this
  | p :: q :: rest, _, hg => by
      have hp : goodSeg p = true := by
        simp [goodSegs, List.all_eq_true] at hg
        exact hg.1
      have hpd : p.data ≠ [] := by
        intro h
        exact (goodSeg_spec hp).1 (by cases p; simp_all)
      intro h
      have h2 : p ++ "/" ++ joinPath (q :: rest) = "" := h
      have h3 := congrArg String.data h2
      simp only [String.data_append] at h3
      exact hpd (List.append_eq_nil.mp (List.append_eq_nil.mp h3).1).1

theorem joinPath_snoc : ∀ (ps : List String) (k : String), ps ≠ [] →
    joinPath (ps ++ [k]) = joinPath ps ++ "/" ++ k
  | [], _, h => absurd rfl h
  | [p], k, _ => by simp [joinPath]
  | p :: q :: rest, k, _ => by
      have ih := joinPath_snoc (q :: rest) k (by simp)
      show p ++ "/" ++ joinPath ((q :: rest) ++ [k]) = _
      rw [ih]
      simp [joinPath, String.append_assoc]

theorem mkPath_joinPath (ps : List String) (k : String) (hne : ps ≠ [])
    (hg : goodSegs ps = true) :
    mkPath (joinPath ps) k = joinPath (ps ++ [k]) := by
  rw [mkPath, if_pos (joinPath_ne_empty ps hne hg), joinPath_snoc ps k hne]

theorem goodSegs_snoc {ps : List String} {k : String} (hps : goodSegs ps = true)
    (hk : goodSeg k = true) : goodSegs (ps ++ [k]) = true := by
  simp [goodSegs, List.all_eq_true] at hps ⊢
  exact ⟨hps, hk⟩

/-! ### Freshness and grafting lemmas -/

theorem freshPath_ne_nil {o : JObj} {ps : List String}
    (h : freshPath o ps = true) : ps ≠ [] := by
  cases ps with
  | nil => simp [freshPath] at h
  | cons _ _ => simp

theorem freshPath_nil_obj : ∀ (ps : List String), ps ≠ [] →
    freshPath .nil ps = true
  | [_], _ => by simp [freshPath, JObj.get]
  | _ :: _ :: _, _ => by simp [freshPath, JObj.get]

theorem freshPath_snoc : ∀ (o : JObj) (ps : List String) (k : String),
    freshPath o ps = true → freshPath o (ps ++ [k]) = true
  | o, [p], k, h => by
      simp only [freshPath, Option.isNone_iff_eq_none] at h
      simp [freshPath, h]
  | o, p :: q :: rest, k, h => by
      simp only [freshPath] at h ⊢
      match hw : o.get p with
      | some (.obj c) =>
          simp only [hw] at h ⊢
          exact freshPath_snoc c (q :: rest) k h
      | some (.str _) | some (.num _) | some (.boolean _)
      | some .jnull | some (.arr _) => simp [hw] at h
      | none => simp [hw]
  | _, [], _, h => by simp [freshPath] at h

@[simp] theorem childObj_set_self (o : JObj) (p : String) (c : JObj) :
    childObj (o.set p (.obj c)) p = c := by
  simp [childObj]

theorem freshPath_insertTree : ∀ (o d : JObj) (ps : List String) (k : String),
    ps ≠ [] →
    freshPath (insertTree o ps (.obj d)) (ps ++ [k]) = (d.get k).isNone
  | o, d, [p], k, _ => by
      simp [insertTree, freshPath, JObj.get_set_self]
  | o, d, p :: q :: rest, k, _ => by
      simp only [insertTree, List.cons_append, freshPath, JObj.get_set_self]
      exact freshPath_insertTree (childObj o p) d (q :: rest) k (by simp)
  | _, _, [], _, h => absurd rfl h

theorem setSegs_eq_insertTree : ∀ (o : JObj) (ps : List String) (v : JVal),
    freshPath o ps = true → setSegs o ps v = insertTree o ps v
  | _, [], _, h => by simp [freshPath] at h
  | o, [p], v, _ => rfl
  | o, p :: q :: rest, v, h => by
      simp only [freshPath] at h
      simp only [setSegs, insertTree]
      match hw : o.get p with
      | some (.obj c) =>
          simp only [hw] at h
          simp only [hw, childObj]
          rw [setSegs_eq_insertTree c (q :: rest) v h]
      | some (.str _) | some (.num _) | some (.boolean _)
      | some .jnull | some (.arr _) => simp [hw] at h
      | none =>
          simp only [hw, childObj]
          rw [setSegs_eq_insertTree .nil (q :: rest) v
            (freshPath_nil_obj (q :: rest) (by simp))]

theorem insertTree_snoc : ∀ (ps : List String), ps ≠ [] →
    ∀ (o d : JObj) (k : String) (v : JVal),
      insertTree (insertTree o ps (.obj d)) (ps ++ [k]) v =
        insertTree o ps (.obj (d.set k v))
  | [], h, _, _, _, _ => absurd rfl h
  | [p], _, o, d, k, v => by
      simp [insertTree, childObj_set_self, JObj.set_set_self]
  | p :: q :: rest, _, o, d, k, v => by
      have ih := insertTree_snoc (q :: rest) (by simp) (childObj o p) d k v
      simp only [List.cons_append] at ih
      simp only [insertTree, List.cons_append, List.append_eq,
        childObj_set_self, JObj.set_set_self]
      rw [ih]

theorem insertTree_fresh_split : ∀ (o : JObj) (ps : List String)
    (k : String) (v : JVal), freshPath o ps = true →
    insertTree o (ps ++ [k]) v = insertTree o ps (.obj (JObj.nil.set k v))
  | _, [], _, _, h => by simp [freshPath] at h
  | o, [p], k, v, h => by
      simp only [freshPath, Option.isNone_iff_eq_none] at h
      simp [insertTree, childObj, h]
  | o, p :: q :: rest, k, v, h => by
      simp only [freshPath] at h
      simp only [insertTree, List.cons_append, List.append_eq]
      match hw : o.get p with
      | some (.obj c) =>
          simp only [hw] at h
          have ih := insertTree_fresh_split c (q :: rest) k v h
          simp only [List.cons_append] at ih
          simp only [childObj, hw]
          rw [ih]
      | some (.str _) | some (.num _) | some (.boolean _)
      | some .jnull | some (.arr _) => simp [hw] at h
      | none =>
          have ih := insertTree_fresh_split .nil (q :: rest) k v
            (freshPath_nil_obj (q :: rest) (by simp))
          simp only [List.cons_append] at ih
          simp only [childObj, hw]
          rw [ih]

/-! ### Canonical Leafs survive the record round trip -/

theorem leaf_extract (o : JObj) (h : leafShape (.obj o) = true) :
    o.get "value" = some (leafVal o) ∧
      ∀ p, recordNode ⟨p, leafVal o, o.get "type", o.get "comment"⟩ = .obj o := by
  cases o with
  | nil => simp [leafShape] at h
  | cons k w rest =>
    simp only [leafShape, Bool.and_eq_true, decide_eq_true_eq] at h
    obtain ⟨hk, hr⟩ := h
    subst hk
    cases rest with
    | nil =>
      exact ⟨by simp [JObj.get, leafVal],
        fun p => by simp [recordNode, JObj.get, leafVal]⟩
    | cons k2 t rest2 =>
      cases rest2 with
      | nil =>
        simp only [restShape, Bool.or_eq_true, decide_eq_true_eq] at hr
        rcases hr with h2 | h2 <;> subst h2 <;>
          exact ⟨by simp [JObj.get, leafVal],
            fun p => by simp [recordNode, JObj.get, leafVal]⟩
      | cons k3 c rest3 =>
        cases rest3 with
        | nil =>
          simp only [restShape, Bool.and_eq_true, decide_eq_true_eq] at hr
          obtain ⟨h2, h3⟩ := hr
          subst h2; subst h3
          exact ⟨by simp [JObj.get, leafVal],
            fun p => by simp [recordNode, JObj.get, leafVal]⟩
        | cons _ _ _ => simp [restShape] at hr

/-! ### The unflatten fold grafts each well-formed subtree -/

mutual
/-- Folding the records of one well-formed child over a fresh path grafts
that child at the path. -/
theorem childFold (v : JVal) (hwf : wfChild v = true) (acc : JObj)
    (ps : List String) (hg : goodSegs ps = true)
    (hf : freshPath acc ps = true) :
    List.foldl unflattenStep acc (childRecords v (joinPath ps)) =
      insertTree acc ps v := by
  have hne : ps ≠ [] := freshPath_ne_nil hf
  match v with
  | .str _ | .num _ | .boolean _ | .jnull | .arr _ => simp [wfChild] at hwf
  | .obj o =>
    by_cases hL : leafShape (.obj o) = true
    · obtain ⟨hval, hrec⟩ := leaf_extract o hL
      simp only [childRecords, hval, List.foldl_cons, List.foldl_nil,
        unflattenStep, setNestedValue, hrec,
        jsSplit_joinPath ps hne hg]
      exact setSegs_eq_insertTree acc ps (.obj o) hf
    · match o with
      | .nil =>
        exfalso
        revert hwf
        simp [wfChild, leafShape]
      | .cons k1 c1 o' =>
        have hwf2 : (JObj.cons k1 c1 o').get "value" = none ∧
            wfTokens (JObj.cons k1 c1 o') = true := by
          simp only [wfChild, Bool.or_eq_true, Bool.and_eq_true,
            Option.isNone_iff_eq_none] at hwf
          rcases hwf with h | h
          · exact absurd h hL
          · exact ⟨h.1.1, h.2⟩
        obtain ⟨hvn', hwo⟩ := hwf2
        simp only [wfTokens, Bool.and_eq_true, decide_eq_true_eq,
          Bool.not_eq_true', decide_eq_false_iff_not] at hwo
        obtain ⟨⟨⟨hk1g, hk1mem⟩, hwc1⟩, hwo'⟩ := hwo
        simp only [childRecords, hvn', flattenTokens,
          mkPath_joinPath ps k1 hne hg, List.foldl_append]
        rw [childFold c1 hwc1 acc (ps ++ [k1])
          (goodSegs_snoc hg hk1g) (freshPath_snoc acc ps k1 hf)]
        rw [insertTree_fresh_split acc ps k1 (c1) hf]
        have habs : ∀ k, k ∈ o'.keys → (JObj.nil.set k1 c1).get k = none := by
          intro k hk
          have hne1 : k1 ≠ k := fun h => hk1mem (h ▸ hk)
          simp [JObj.set, JObj.get, hne1]
        rw [groupFold o' hwo' acc (JObj.nil.set k1 c1) ps hne hg habs]
        rw [extendObj_eq_jappend o' (JObj.nil.set k1 c1)
          (wf_keysNoDup o' hwo') habs]
        rfl
termination_by sizeOf v

/-- Folding the records of a well-formed group's children extends the
object grafted at the path by those children, in order. -/
theorem groupFold (o : JObj) (hwf : wfTokens o = true) (acc d : JObj)
    (ps : List String) (hne : ps ≠ []) (hg : goodSegs ps = true)
    (habs : ∀ k, k ∈ o.keys → d.get k = none) :
    List.foldl unflattenStep (insertTree acc ps (.obj d))
        (flattenTokens o (joinPath ps)) =
      insertTree acc ps (.obj (extendObj d o)) := by
  match o with
  | .nil => simp [flattenTokens, extendObj]
  | .cons k v o' =>
    simp only [wfTokens, Bool.and_eq_true, decide_eq_true_eq,
      Bool.not_eq_true', decide_eq_false_iff_not] at hwf
    obtain ⟨⟨⟨hkg, hkmem⟩, hwv⟩, hwo'⟩ := hwf
    simp only [flattenTokens, mkPath_joinPath ps k hne hg,
      List.foldl_append]
    have hfresh : freshPath (insertTree acc ps (.obj d)) (ps ++ [k]) = true := by
      rw [freshPath_insertTree acc d ps k hne]
      simp [habs k (by simp [JObj.keys])]
    rw [childFold v hwv (insertTree acc ps (.obj d)) (ps ++ [k])
      (goodSegs_snoc hg hkg) hfresh]
    rw [insertTree_snoc ps hne acc d k v]
    have habs' : ∀ k', k' ∈ o'.keys → (d.set k v).get k' = none := by
      intro k' hk'
      have hne' : k ≠ k' := fun h => hkmem (h ▸ hk')
      rw [JObj.get_set_ne d k k' v hne']
      exact habs k' (by simp [JObj.keys, hk'])
    rw [groupFold o' hwo' acc (d.set k v) ps hne hg habs']
    rfl
termination_by sizeOf o
end

/-- The top-level fold (empty prefix) extends the accumulator by the
tree's children, in traversal order. -/
theorem topFold : ∀ (o : JObj), wfTokens o = true → ∀ (d : JObj),
    (∀ k, k ∈ o.keys → d.get k = none) →
    List.foldl unflattenStep d (flattenTokens o "") = extendObj d o
  | .nil, _, d, _ => by simp [flattenTokens, extendObj]
  | .cons k v o', hwf, d, habs => by
      simp only [wfTokens, Bool.and_eq_true, decide_eq_true_eq,
        Bool.not_eq_true', decide_eq_false_iff_not] at hwf
      obtain ⟨⟨⟨hkg, hkmem⟩, hwv⟩, hwo'⟩ := hwf
      have hdk : d.get k = none := habs k (by simp [JObj.keys])
      have hmk : mkPath "" k = k := by simp [mkPath]
      have hjk : joinPath [k] = k := rfl
      simp only [flattenTokens, hmk, List.foldl_append]
      have hfold := childFold v hwv d [k]
        (by simp [goodSegs, hkg]) (by simp [freshPath, hdk])
      rw [hjk] at hfold
      rw [hfold]
      have hset : insertTree d [k] v = d.set k v := rfl
      rw [hset]
      have habs' : ∀ k', k' ∈ o'.keys → (d.set k v).get k' = none := by
        intro k' hk'
        have hne' : k ≠ k' := fun h => hkmem (h ▸ hk')
        rw [JObj.get_set_ne d k k' v hne']
        exact habs k' (by simp [JObj.keys, hk'])
      rw [topFold o' hwo' (d.set k v) habs']
      rfl

/-- Round trip on well-formed trees: unflattening everything
`flattenTokens` emits rebuilds the tree exactly. -/
theorem roundtrip_wf (o : JObj) (h : wfTokens o = true) :
    unflattenAll (flattenTokens o "") = o := by
  have habs : ∀ k, k ∈ o.keys → JObj.get .nil k = none := by
    intro k _
    simp [JObj.get]
  unfold unflattenAll
  rw [topFold o h .nil habs]
  rw [extendObj_eq_jappend o .nil (wf_keysNoDup o h) habs]
  rfl

/-! ### Claim C1 — flatten/unflatten round trip -/

/-- C1 counterexample: `{a: {}}` has no node with both a `value` key and
Group children, yet flattening it emits nothing, so unflattening the
records loses the empty Group and the round trip fails. -/
theorem flatten_unflatten_round_trip_cex :
    flattenTokens (JObj.cons "a" (.obj .nil) .nil) "" = [] ∧
      unflattenAll (flattenTokens (JObj.cons "a" (.obj .nil) .nil) "") ≠
        JObj.cons "a" (.obj .nil) .nil := by
  decide

/-- C1 (amended): for every well-formed tree — every Group non-empty and
free of a `value` key, keys unique, non-empty and slash-free, Leaf fields
in the canonical `value`, `type?`, `comment?` order — unflattening the
records of `flattenTokens` rebuilds the tree exactly; the empty tree
flattens to the empty list, which unflattens back to the empty tree. -/
theorem flatten_unflatten_round_trip (o : JObj) (h : wfTokens o = true) :
    unflattenAll (flattenTokens o "") = o ∧
      (flattenTokens JObj.nil "" = [] ∧ unflattenAll [] = JObj.nil) :=
  ⟨roundtrip_wf o h, rfl, rfl⟩

/-- C1 witness: the round trip on a concrete two-level tree. -/
theorem flatten_unflatten_round_trip_witness :
    wfTokens exWf = true ∧
      (unflattenAll (flattenTokens exWf "") = exWf ∧
        (flattenTokens JObj.nil "" = [] ∧ unflattenAll [] = JObj.nil)) :=
  ⟨by decide, flatten_unflatten_round_trip exWf (by decide)⟩

/-! ### Claim C2 — deep-merge semantics -/

theorem mergeEntry_get_ne (t : JObj) (k0 k : String) (v0 : JVal)
    (h : k0 ≠ k) : (mergeEntry t k0 v0).get k = t.get k := by
  match v0 with
  | .obj s =>
    simp only [mergeEntry]
    match t.get k0 with
    | some (.obj c) => exact JObj.get_set_ne t k0 k _ h
    | some (.str w) | some (.num w) | some (.boolean w)
    | some (.arr w) =>
        simp only [JVal.truthy]
        split
        · rfl
        · exact JObj.get_set_ne t k0 k _ h
    | some .jnull => exact JObj.get_set_ne t k0 k _ h
    | none => exact JObj.get_set_ne t k0 k _ h
  | .str s => exact JObj.get_set_ne t k0 k _ h
  | .num q => exact JObj.get_set_ne t k0 k _ h
  | .boolean b => exact JObj.get_set_ne t k0 k _ h
  | .jnull => exact JObj.get_set_ne t k0 k _ h
  | .arr a => exact JObj.get_set_ne t k0 k _ h

theorem JObj.get_none_iff : ∀ (o : JObj) (k : String),
    o.get k = none ↔ k ∉ o.keys
  | .nil, k => by simp [JObj.get, JObj.keys]
  | .cons k0 v rest, k => by
      by_cases h : k0 = k <;>
        simp [JObj.get, JObj.keys, h, JObj.get_none_iff rest k, eq_comm]

theorem deepMerge_get_absent : ∀ (s t : JObj) (k : String),
    k ∉ s.keys → (deepMerge t s).get k = t.get k
  | .nil, t, k, _ => rfl
  | .cons k0 v0 rest, t, k, h => by
      simp only [JObj.keys, List.mem_cons, not_or] at h
      show (deepMerge (mergeEntry t k0 v0) rest).get k = t.get k
      rw [deepMerge_get_absent rest (mergeEntry t k0 v0) k h.2]
      exact mergeEntry_get_ne t k0 k v0 (fun hh => h.1 hh.symm)

theorem deepMerge_get_obj : ∀ (s t : JObj) (k : String) (tc sc : JObj),
    keysNoDup s = true → t.get k = some (.obj tc) → s.get k = some (.obj sc) →
    (deepMerge t s).get k = some (.obj (deepMerge tc sc))
  | .nil, _, k, _, _, _, _, hs => by simp [JObj.get] at hs
  | .cons k0 v0 rest, t, k, tc, sc, hnd, ht, hs => by
      simp only [keysNoDup, Bool.and_eq_true, Bool.not_eq_true',
        decide_eq_false_iff_not] at hnd
      by_cases h0 : k0 = k
      · subst h0
        have hv : v0 = .obj sc := by simpa [JObj.get] using hs
        subst hv
        show (deepMerge (mergeEntry t k0 (.obj sc)) rest).get k0 = _
        rw [deepMerge_get_absent rest _ k0 hnd.1]
        simp [mergeEntry, ht]
      · simp only [JObj.get, if_neg h0] at hs
        show (deepMerge (mergeEntry t k0 v0) rest).get k = _
        exact deepMerge_get_obj rest (mergeEntry t k0 v0) k tc sc hnd.2
          ((mergeEntry_get_ne t k0 k v0 h0).trans ht) hs

theorem deepMerge_get_nonobj : ∀ (s t : JObj) (k : String) (w : JVal),
    keysNoDup s = true → s.get k = some w → isMergeableObject w = false →
    (deepMerge t s).get k = some w
  | .nil, _, k, _, _, hs, _ => by simp [JObj.get] at hs
  | .cons k0 v0 rest, t, k, w, hnd, hs, hw => by
      simp only [keysNoDup, Bool.and_eq_true, Bool.not_eq_true',
        decide_eq_false_iff_not] at hnd
      by_cases h0 : k0 = k
      · subst h0
        have hv : v0 = w := by simpa [JObj.get] using hs
        rw [← hv]
        rw [← hv] at hw
        show (deepMerge (mergeEntry t k0 v0) rest).get k0 = some v0
        rw [deepMerge_get_absent rest _ k0 hnd.1]
        match v0, hw with
        | .str s, _ | .num q, _ | .boolean b, _ | .jnull, _ | .arr a, _ =>
            simp [mergeEntry, JObj.get_set_self]
      · simp only [JObj.get, if_neg h0] at hs
        show (deepMerge (mergeEntry t k0 v0) rest).get k = _
        exact deepMerge_get_nonobj rest (mergeEntry t k0 v0) k w hnd.2 hs hw

/-- C2 counterexample: merging `{x:{y:{value:"a", comment:"keep"}}}` with
`{x:{y:{value:"b"}}}` does not replace the Leaf at `x.y` by the source's
Leaf: the target's `comment` field survives the merge. -/
theorem deep_merge_leaf_override_cex :
    lookPath (deepMerge exMergeA exMergeB) ["x", "y"] ≠
        lookPath exMergeB ["x", "y"] ∧
      lookPath (deepMerge exMergeA exMergeB) ["x", "y"] =
        some (.obj (.cons "value" (.str "b")
          (.cons "comment" (.str "keep") .nil))) := by
  decide

/-- C2 (amended): `deepMerge` recurses into every non-array source
object, Leafs included — so when both trees hold a Leaf object at `x.y`,
the merged tree holds the field-wise merge of the two Leafs there: fields
of the source Leaf whose values are not objects win over the target's,
and target fields absent from the source survive. -/
theorem deep_merge_fieldwise (A B : JObj) (x y : String) (ax bx la lb : JObj)
    (hA1 : A.get x = some (.obj ax)) (hA2 : ax.get y = some (.obj la))
    (hB1 : B.get x = some (.obj bx)) (hB2 : bx.get y = some (.obj lb))
    (hndB : keysNoDup B = true) (hndbx : keysNoDup bx = true)
    (hndlb : keysNoDup lb = true) :
    lookPath (deepMerge A B) [x, y] = some (.obj (deepMerge la lb)) ∧
      (∀ f w, lb.get f = some w → isMergeableObject w = false →
        (deepMerge la lb).get f = some w) ∧
      (∀ f, lb.get f = none → (deepMerge la lb).get f = la.get f) := by
  refine ⟨?_, ?_, ?_⟩
  · have hx : (deepMerge A B).get x = some (.obj (deepMerge ax bx)) :=
      deepMerge_get_obj B A x ax bx hndB hA1 hB1
    have hy : (deepMerge ax bx).get y = some (.obj (deepMerge la lb)) :=
      deepMerge_get_obj bx ax y la lb hndbx hA2 hB2
    simp [lookPath, hx, hy]
  · intro f w hf hw
    exact deepMerge_get_nonobj lb la f w hndlb hf hw
  · intro f hf
    exact deepMerge_get_absent lb la f ((JObj.get_none_iff lb f).mp hf)

/-- C2 witness: the field-wise merge law applied to the concrete pair of
Leaf-bearing trees. -/
theorem deep_merge_fieldwise_witness :
    lookPath (deepMerge exMergeA exMergeB) ["x", "y"] =
        some (.obj (deepMerge
          (.cons "value" (.str "a") (.cons "comment" (.str "keep") .nil))
          (.cons "value" (.str "b") .nil))) ∧
      (∀ f w,
        (JObj.cons "value" (.str "b") .nil).get f = some w →
        isMergeableObject w = false →
        (deepMerge
          (.cons "value" (.str "a") (.cons "comment" (.str "keep") .nil))
          (.cons "value" (.str "b") .nil)).get f = some w) ∧
      (∀ f, (JObj.cons "value" (.str "b") .nil).get f = none →
        (deepMerge
          (.cons "value" (.str "a") (.cons "comment" (.str "keep") .nil))
          (.cons "value" (.str "b") .nil)).get f =
          (JObj.cons "value" (.str "a")
            (.cons "comment" (.str "keep") .nil)).get f) :=
  deep_merge_fieldwise exMergeA exMergeB "x" "y"
    (.cons "y" (.obj (.cons "value" (.str "a")
      (.cons "comment" (.str "keep") .nil))) .nil)
    (.cons "y" (.obj (.cons "value" (.str "b") .nil)) .nil)
    (.cons "value" (.str "a") (.cons "comment" (.str "keep") .nil))
    (.cons "value" (.str "b") .nil)
    (by decide) (by decide) (by decide) (by decide)
    (by decide) (by decide) (by decide)

/-! ### Claim C3 — resolver termination -/

/-- C3: on the self-referential root `{a: "{a}"}` the resolver re-enters
itself forever — no amount of fuel makes `resolveTokenReferences`
return.  The source has no cycle guard, so the claimed "bounded, finite
tree walk" fails on cyclic references. -/
theorem resolver_diverges_on_cycle :
    ∀ n : Nat, resolveFuel n (.str "{a}") exCyc = none := by
  intro n
  induction n with
  | zero => rfl
  | succ m ih =>
      have hstep : resolveFuel (m + 1) (.str "{a}") exCyc =
          resolveFuel m (.str "{a}") exCyc := rfl
      rw [hstep]
      exact ih

/-! ### Claim C4 — idempotent resolution -/

theorem fuelNeeded_pos : ∀ v : JVal, 1 ≤ fuelNeeded v := by
  intro v
  cases v <;> simp [fuelNeeded]

theorem fuelNeededArr_pos : ∀ a : JArr, 1 ≤ fuelNeededArr a := by
  intro a
  cases a <;> simp [fuelNeededArr]

theorem fuelNeededObj_pos : ∀ o : JObj, 1 ≤ fuelNeededObj o := by
  intro o
  cases o <;> simp [fuelNeededObj]

mutual
theorem resolve_noRefs_val : ∀ (root : JVal) (n : Nat) (v : JVal),
    noRefs v = true → fuelNeeded v ≤ n → resolveFuel n v root = some (v, [])
  | _, 0, v, _, hn => absurd (le_trans (fuelNeeded_pos v) hn) (by omega)
  | root, m + 1, .str s, h, _ => by
      simp only [noRefs, Option.isNone_iff_eq_none] at h
      simp [resolveFuel, h]
  | root, m + 1, .num q, _, _ => rfl
  | root, m + 1, .boolean b, _, _ => rfl
  | root, m + 1, .jnull, _, _ => rfl
  | root, m + 1, .arr a, h, hn => by
      simp only [noRefs] at h
      have hm : fuelNeededArr a ≤ m := by
        simp only [fuelNeeded] at hn
        omega
      simp [resolveFuel, resolve_noRefs_arr root m a h hm]
  | root, m + 1, .obj o, h, hn => by
      simp only [noRefs] at h
      have hm : fuelNeededObj o ≤ m := by
        simp only [fuelNeeded] at hn
        omega
      simp [resolveFuel, resolve_noRefs_obj root m o h hm]
termination_by _ _ v => sizeOf v

theorem resolve_noRefs_arr : ∀ (root : JVal) (m : Nat) (a : JArr),
    noRefsArr a = true → fuelNeededArr a ≤ m →
    resolveArrFuel m a root = some (a, [])
  | _, 0, a, _, hm => absurd (le_trans (fuelNeededArr_pos a) hm) (by omega)
  | root, m + 1, .nil, _, _ => rfl
  | root, m + 1, .cons v rest, h, hm => by
      simp only [noRefsArr, Bool.and_eq_true] at h
      have hv : fuelNeeded v ≤ m := by
        simp only [fuelNeededArr] at hm
        omega
      have hr : fuelNeededArr rest ≤ m := by
        simp only [fuelNeededArr] at hm
        omega
      simp [resolveArrFuel, resolve_noRefs_val root m v h.1 hv,
        resolve_noRefs_arr root m rest h.2 hr]
termination_by _ _ a => sizeOf a

theorem resolve_noRefs_obj : ∀ (root : JVal) (m : Nat) (o : JObj),
    noRefsObj o = true → fuelNeededObj o ≤ m →
    resolveObjFuel m o root = some (o, [])
  | _, 0, o, _, hm => absurd (le_trans (fuelNeededObj_pos o) hm) (by omega)
  | root, m + 1, .nil, _, _ => rfl
  | root, m + 1, .cons k v rest, h, hm => by
      simp only [noRefsObj, Bool.and_eq_true] at h
      have hv : fuelNeeded v ≤ m := by
        simp only [fuelNeededObj] at hm
        omega
      have hr : fuelNeededObj rest ≤ m := by
        simp only [fuelNeededObj] at hm
        omega
      simp [resolveObjFuel, resolve_noRefs_val root m v h.1 hv,
        resolve_noRefs_obj root m rest h.2 hr]
termination_by _ _ o => sizeOf o
end

/-- C4 counterexample: on `{a: "{b}", b: {c: 1}, d: "{a.c}"}` resolution
terminates (fuel 20 suffices), but resolving the resolved tree against
itself changes it again — the reference `a.c`, unresolvable in the
original tree, resolves in the resolved one — so
`resolve(resolve(T,T), resolve(T,T)) ≠ resolve(T,T)`. -/
theorem resolve_idempotence_cex :
    resolveFuel 20 exResT exResT =
        some (exResR, ["Token reference not found: a.c"]) ∧
      resolveFuel 20 exResR exResR = some (exResR2, []) ∧
      exResR2 ≠ exResR := by
  decide

/-- C4 (amended): resolution is a no-op on fully resolved trees — if a
value contains no reference-shaped string, resolving it against any root
returns it unchanged (with no warnings) for every sufficient fuel.  The
unamended idempotence law fails because an unresolved reference left
verbatim can become resolvable against the resolved tree. -/
theorem resolve_fixed_on_resolved (R root : JVal) (n : Nat)
    (h : noRefs R = true) (hn : fuelNeeded R ≤ n) :
    resolveFuel n R root = some (R, []) :=
  resolve_noRefs_val root n R h hn

/-- C4 witness: the fully resolved image of the counterexample tree is a
fixed point of resolution. -/
theorem resolve_fixed_on_resolved_witness :
    noRefs exResR2 = true ∧ fuelNeeded exResR2 ≤ 20 ∧
      resolveFuel 20 exResR2 exResR2 = some (exResR2, []) :=
  ⟨by decide, by decide,
    resolve_fixed_on_resolved exResR2 exResR2 20 (by decide) (by decide)⟩

/-! ### Claim C5 — unresolved references are never fatal -/

/-- C5: a full-string reference whose dotted path misses in the root is
returned verbatim together with its warning; non-reference strings and
non-string scalars pass through unchanged with no warning; and a failing
reference inside an object does not disturb the resolution of its sibling
entries. -/
theorem resolver_unresolved_nonfatal (root : JVal) :
    (∀ s p n, refInner? s = some p → navigate root (jsSplit '.' p) = none →
      resolveFuel (n + 1) (.str s) root =
        some (.str s, ["Token reference not found: " ++ p])) ∧
    (∀ s n, refInner? s = none →
      resolveFuel (n + 1) (.str s) root = some (.str s, [])) ∧
    (∀ q n, resolveFuel (n + 1) (.num q) root = some (.num q, [])) ∧
    (∀ b n, resolveFuel (n + 1) (.boolean b) root = some (.boolean b, [])) ∧
    (∀ n, resolveFuel (n + 1) .jnull root = some (.jnull, [])) ∧
    (∀ k s p rest n rest' w, refInner? s = some p →
      navigate root (jsSplit '.' p) = none →
      resolveObjFuel (n + 1) rest root = some (rest', w) →
      resolveObjFuel (n + 2) (.cons k (.str s) rest) root =
        some (.cons k (.str s) rest',
          ("Token reference not found: " ++ p) :: w)) := by
  refine ⟨?_, ?_, fun q n => rfl, fun b n => rfl, fun n => rfl, ?_⟩
  · intro s p n h1 h2
    simp [resolveFuel, h1, h2]
  · intro s n h1
    simp [resolveFuel, h1]
  · intro k s p rest n rest' w h1 h2 h3
    simp [resolveObjFuel, resolveFuel, h1, h2, h3]

/-- C5 witness: a missing reference `{z.q}`, a plain string and a number
against a concrete root, and the failing reference sitting beside a
sibling that still resolves. -/
theorem resolver_unresolved_nonfatal_witness :
    resolveFuel 3 (.str "{z.q}") exResT =
        some (.str "{z.q}", ["Token reference not found: z.q"]) ∧
      resolveFuel 3 (.str "plain") exResT = some (.str "plain", []) ∧
      resolveFuel 3 (.num 7) exResT = some (.num 7, []) ∧
      resolveObjFuel 4 (.cons "bad" (.str "{z.q}")
          (.cons "ok" (.num 5) .nil)) exResT =
        some (.cons "bad" (.str "{z.q}") (.cons "ok" (.num 5) .nil),
          ["Token reference not found: z.q"]) := by
  refine ⟨?_, ?_, ?_, ?_⟩
  · exact (resolver_unresolved_nonfatal exResT).1 "{z.q}" "z.q" 2
      (by decide) (by decide)
  · exact (resolver_unresolved_nonfatal exResT).2.1 "plain" 2 (by decide)
  · exact (resolver_unresolved_nonfatal exResT).2.2.1 7 2
  · exact (resolver_unresolved_nonfatal exResT).2.2.2.2.2 "bad" "{z.q}"
      "z.q" (.cons "ok" (.num 5) .nil) 2 (.cons "ok" (.num 5) .nil) []
      (by decide) (by decide) (by decide)

/-! ### Claims C6/C7 — structure classifier -/

theorem classify_brand_not_excluded {p name whole : String}
    (h : classifyPath p = .brand name whole) :
    jsToLower name ∉ excludedNames := by
  unfold classifyPath at h
  split at h
  · simp at h
  split at h
  · simp at h
  split at h
  · simp at h
  split at h
  case _ whole' name' heq =>
    split at h
    · simp at h
    · simp only [FileClass.brand.injEq] at h
      obtain ⟨h1, _⟩ := h
      subst h1
      assumption
  · simp at h

theorem classify_dropped_iff (p : String) :
    classifyPath p = .dropped ↔ p = "" := by
  constructor
  · intro h
    by_contra hp
    unfold classifyPath at h
    rw [if_neg hp] at h
    split at h
    · simp at h
    split at h
    · simp at h
    split at h
    case _ whole' name' heq =>
      split at h <;> simp at h
    · simp at h
  · intro h
    subst h
    rfl

theorem classify_global_of_includes {p : String}
    (h : jsIncludes p "/global/" = true) : classifyPath p = .global := by
  have hp : p ≠ "" := by
    intro hp
    subst hp
    exact absurd h (by decide)
  unfold classifyPath
  rw [if_neg hp, if_pos (by simp [h])]

theorem includes_trans_brand_global {p : String}
    (h : jsIncludes p "/brand/global/" = true) :
    jsIncludes p "/global/" = true := by
  simp only [jsIncludes, decide_eq_true_eq] at h ⊢
  exact List.IsInfix.trans (by decide) h

theorem detect_global_mono : ∀ (files : List String)
    (st : MultiBrandStructure) (p : String), p ∈ st.globalFiles →
    p ∈ (files.foldl detectStep st).globalFiles
  | [], _, _, h => h
  | q :: files, st, p, h =>
      detect_global_mono files (detectStep st q) p (by
        cases hc : classifyPath q <;> simp [detectStep, hc, h])

theorem detect_global_mem : ∀ (files : List String)
    (st : MultiBrandStructure) (p : String), p ∈ files →
    classifyPath p = .global → p ∈ (files.foldl detectStep st).globalFiles
  | [], _, p, h, _ => absurd h (List.not_mem_nil p)
  | q :: files, st, p, h, hc => by
      rcases List.mem_cons.mp h with h1 | h2
      · subst h1
        exact detect_global_mono files (detectStep st p) p
          (by simp [detectStep, hc])
      · exact detect_global_mem files (detectStep st q) p h2 hc

theorem addBrandFile_name_mem : ∀ (bs : List BrandInfo) (n w q : String)
    (b : BrandInfo), b ∈ addBrandFile bs n w q →
    b.name = n ∨ ∃ b0 ∈ bs, b.name = b0.name
  | [], n, w, q, b, h => by
      simp only [addBrandFile, List.mem_singleton] at h
      subst h
      exact Or.inl rfl
  | b0 :: rest, n, w, q, b, h => by
      by_cases h0 : b0.name = n
      · simp only [addBrandFile, if_pos h0, List.mem_cons] at h
        rcases h with h | h
        · subst h
          exact Or.inr ⟨b0, List.mem_cons_self b0 rest, rfl⟩
        · exact Or.inr ⟨b, List.mem_cons_of_mem b0 h, rfl⟩
      · simp only [addBrandFile, if_neg h0, List.mem_cons] at h
        rcases h with h | h
        · subst h
          exact Or.inr ⟨b, List.mem_cons_self b rest, rfl⟩
        · rcases addBrandFile_name_mem rest n w q b h with h1 | ⟨b1, hb1, he⟩
          · exact Or.inl h1
          · exact Or.inr ⟨b1, List.mem_cons_of_mem b0 hb1, he⟩

theorem detect_brands_inv : ∀ (files : List String)
    (st : MultiBrandStructure),
    (∀ b ∈ st.brands, jsToLower b.name ∉ excludedNames) →
    ∀ b ∈ (files.foldl detectStep st).brands,
      jsToLower b.name ∉ excludedNames
  | [], _, hinv => hinv
  | q :: files, st, hinv => by
      refine detect_brands_inv files (detectStep st q) ?_
      intro b hb
      cases hc : classifyPath q with
      | brand n w =>
          rw [detectStep, hc] at hb
          rcases addBrandFile_name_mem st.brands n w q b hb with h1 | ⟨b0, hb0, he⟩
          · rw [h1]
            exact classify_brand_not_excluded hc
          · rw [he]
            exact hinv b0 hb0
      | global => rw [detectStep, hc] at hb; exact hinv b hb
      | base => rw [detectStep, hc] at hb; exact hinv b hb
      | dropped => rw [detectStep, hc] at hb; exact hinv b hb

/-- C6: the classifier never registers a brand whose lowercased name is
in the reserved exclusion set; a path whose candidate brand-folder name
is excluded is classified into the global or base bucket instead; and a
path containing `/brand/global/` always lands in the global bucket — in
particular no brand named "global" is ever created. -/
theorem classifier_exclusion (files : List String) :
    (∀ b ∈ (detectMultiBrandStructure files).brands,
      jsToLower b.name ∉ excludedNames ∧ b.name ≠ "global") ∧
    (∀ p whole name, p ≠ "" → brandMatch p = some (whole, name) →
      jsToLower name ∈ excludedNames →
      classifyPath p = .global ∨ classifyPath p = .base) ∧
    (∀ p ∈ files, jsIncludes p "/brand/global/" = true →
      p ∈ (detectMultiBrandStructure files).globalFiles) := by
  refine ⟨?_, ?_, ?_⟩
  · intro b hb
    have h1 := detect_brands_inv files ⟨[], [], []⟩ (by simp) b hb
    refine ⟨h1, ?_⟩
    intro he
    exact h1 (by rw [he]; decide)
  · intro p whole name hp hbm hexc
    unfold classifyPath
    rw [if_neg hp]
    split
    · exact Or.inl rfl
    split
    · exact Or.inr rfl
    rw [hbm]
    left
    simp [hexc]
  · intro p hp hinc
    exact detect_global_mem files ⟨[], [], []⟩ p hp
      (classify_global_of_includes (includes_trans_brand_global hinc))


/-- C6 witness: a concrete file list with a `/brand/global/` path, and a
concrete path whose candidate brand name `Global` is excluded. -/
theorem classifier_exclusion_witness :
    ("a/brand/global/x.json" ∈
      (detectMultiBrandStructure
        ["a/brand/global/x.json", "src/brands/acme/c.json"]).globalFiles) ∧
    jsIncludes "a/brand/global/x.json" "/brand/global/" = true ∧
    (classifyPath "x/brands/Global/a.json" = .global ∨
      classifyPath "x/brands/Global/a.json" = .base) :=
  ⟨(classifier_exclusion
      ["a/brand/global/x.json", "src/brands/acme/c.json"]).2.2
    "a/brand/global/x.json" (by decide) (by decide), by decide,
    (classifier_exclusion []).2.1 "x/brands/Global/a.json"
      "/brands/Global/" "Global" (by decide) (by decide) (by decide)⟩

theorem count_addBrandFile : ∀ (bs : List BrandInfo) (n w q p : String),
    List.count p (((addBrandFile bs n w q).map (·.files)).flatten) =
      List.count p ((bs.map (·.files)).flatten) + if q = p then 1 else 0
  | [], n, w, q, p => by
      simp [addBrandFile, List.count_cons]
  | b0 :: rest, n, w, q, p => by
      by_cases h0 : b0.name = n
      · simp only [addBrandFile, if_pos h0, List.map_cons, List.flatten_cons,
          List.count_append]
        have : List.count p [q] = if q = p then 1 else 0 := by
          simp [List.count_cons]
        omega
      · simp only [addBrandFile, if_neg h0, List.map_cons, List.flatten_cons,
          List.count_append, count_addBrandFile rest n w q p]
        omega

theorem count_detectStep (st : MultiBrandStructure) (q p : String) :
    List.count p (allBucketEntries (detectStep st q)) =
      List.count p (allBucketEntries st) +
        if q = p ∧ q ≠ "" then 1 else 0 := by
  cases hc : classifyPath q with
  | dropped =>
      have hq : q = "" := (classify_dropped_iff q).mp hc
      subst hq
      simp [detectStep, hc]
  | global =>
      have hq : q ≠ "" := by
        intro hq
        rw [hq] at hc
        exact absurd ((classify_dropped_iff "").mpr rfl) (by rw [hc]; simp)
      have : List.count p [q] = if q = p then 1 else 0 := by
        simp [List.count_cons]
      simp only [detectStep, hc, allBucketEntries, List.count_append,
        List.append_assoc]
      simp only [List.count_append, this, hq]
      split <;> simp_all <;> omega
  | base =>
      have hq : q ≠ "" := by
        intro hq
        rw [hq] at hc
        exact absurd ((classify_dropped_iff "").mpr rfl) (by rw [hc]; simp)
      have : List.count p [q] = if q = p then 1 else 0 := by
        simp [List.count_cons]
      simp only [detectStep, hc, allBucketEntries, List.count_append,
        List.append_assoc]
      simp only [List.count_append, this, hq]
      split <;> simp_all <;> omega
  | brand n w =>
      have hq : q ≠ "" := by
        intro hq
        rw [hq] at hc
        exact absurd ((classify_dropped_iff "").mpr rfl) (by rw [hc]; simp)
      simp only [detectStep, hc, allBucketEntries, List.count_append,
        count_addBrandFile st.brands n w q p, hq]
      split <;> simp_all <;> omega

theorem detect_count : ∀ (files : List String) (st : MultiBrandStructure)
    (p : String),
    List.count p (allBucketEntries (files.foldl detectStep st)) =
      List.count p (allBucketEntries st) +
        List.count p (files.filter (fun q => q ≠ ""))
  | [], _, _ => by simp
  | q :: files, st, p => by
      show List.count p (allBucketEntries (files.foldl detectStep (detectStep st q))) = _
      rw [detect_count files (detectStep st q) p, count_detectStep st q p]
      by_cases hq : q = ""
      · subst hq
        simp
      · rw [show List.filter (fun q => decide (q ≠ "")) (q :: files) =
            q :: List.filter (fun q => decide (q ≠ "")) files from by
          simp [List.filter_cons, hq]]
        rw [List.count_cons]
        by_cases hqp : q = p
        · subst hqp
          rw [if_pos ⟨rfl, hq⟩, if_pos (by simp)]
          omega
        · rw [if_neg (fun hand => hqp hand.1), if_neg (by simp [hqp])]
          omega

/-- C7 counterexample: the input path `""` occurs once in the input but
is placed in no bucket — the `!path` safety check drops it — so not
every input path is classified. -/
theorem classifier_partition_cex :
    List.count "" (allBucketEntries (detectMultiBrandStructure [""])) = 0 ∧
      List.count "" [""] = 1 := by
  decide

/-- C7 (amended): every occurrence of every non-empty input path is
placed in exactly one bucket — across the global bucket, the base bucket
and all brand file lists together, each non-empty path occurs exactly as
often as in the input; the empty string is dropped by the falsy-path
safety check. -/
theorem classifier_partition (files : List String) (p : String) :
    List.count p (allBucketEntries (detectMultiBrandStructure files)) =
      List.count p (files.filter (fun q => q ≠ "")) := by
  have h := detect_count files ⟨[], [], []⟩ p
  simpa [allBucketEntries] using h

/-! ### Claim C8 — change summary -/

theorem foldl_am (oldFlat : List (String × JVal)) :
    ∀ (l : List (String × JVal)) (a m : List String),
    l.foldl (fun (acc : List String × List String) pv =>
      match mapGet oldFlat pv.1 with
      | none => (acc.1 ++ [pv.1], acc.2)
      | some w => if w ≠ pv.2 then (acc.1, acc.2 ++ [pv.1]) else acc) (a, m) =
    (a ++ (l.filter (fun pv => (mapGet oldFlat pv.1).isNone)).map Prod.fst,
      m ++ (l.filter (fun pv =>
        match mapGet oldFlat pv.1 with
        | some w => w ≠ pv.2
        | none => false)).map Prod.fst)
  | [], a, m => by simp
  | pv :: l, a, m => by
      match hg : mapGet oldFlat pv.1 with
      | none =>
          simp only [List.foldl_cons, hg]
          rw [foldl_am oldFlat l (a ++ [pv.1]) m]
          simp [List.filter_cons, hg]
      | some w =>
          simp only [List.foldl_cons, hg, ne_eq]
          by_cases hw : w = pv.2
          · rw [if_neg (by simp [hw])]
            rw [foldl_am oldFlat l a m]
            simp [List.filter_cons, hg, hw]
          · rw [if_pos hw]
            rw [foldl_am oldFlat l a (m ++ [pv.1])]
            simp [List.filter_cons, hg, hw]

theorem foldl_removed (newFlat : List (String × JVal)) :
    ∀ (l : List (String × JVal)) (r : List String),
    l.foldl (fun acc pv =>
      if (mapGet newFlat pv.1).isSome then acc else acc ++ [pv.1]) r =
    r ++ (l.filter (fun pv => (mapGet newFlat pv.1).isNone)).map Prod.fst
  | [], r => by simp
  | pv :: l, r => by
      simp only [List.foldl_cons]
      match hg : mapGet newFlat pv.1 with
      | none =>
          rw [if_neg (by simp [hg])]
          rw [foldl_removed newFlat l (r ++ [pv.1])]
          simp [List.filter_cons, hg]
      | some w =>
          rw [if_pos (by simp [hg])]
          rw [foldl_removed newFlat l r]
          simp [List.filter_cons, hg]

theorem mapGet_none_iff : ∀ (m : List (String × JVal)) (k : String),
    mapGet m k = none ↔ k ∉ m.map Prod.fst
  | [], k => by simp [mapGet]
  | (k0, v0) :: rest, k => by
      by_cases h : k0 = k <;>
        simp [mapGet, h, mapGet_none_iff rest k, eq_comm]

theorem mapSet_keys : ∀ (m : List (String × JVal)) (k : String) (v : JVal),
    (mapSet m k v).map Prod.fst =
      if k ∈ m.map Prod.fst then m.map Prod.fst else m.map Prod.fst ++ [k]
  | [], k, v => by simp [mapSet]
  | (k0, v0) :: rest, k, v => by
      by_cases h : k0 = k
      · subst h
        simp [mapSet]
      · simp only [mapSet, if_neg h, List.map_cons,
          mapSet_keys rest k v]
        by_cases hm : k ∈ rest.map Prod.fst
        · simp [hm, Ne.symm h]
        · simp [hm, Ne.symm h]

theorem mapSet_nodup (m : List (String × JVal)) (k : String) (v : JVal)
    (h : (m.map Prod.fst).Nodup) : ((mapSet m k v).map Prod.fst).Nodup := by
  rw [mapSet_keys m k v]
  by_cases hm : k ∈ m.map Prod.fst
  · simpa [hm] using h
  · simp only [hm, if_false]
    simpa [List.nodup_append, hm] using h

theorem mapSetAll_nodup : ∀ (entries res : List (String × JVal)),
    (res.map Prod.fst).Nodup → ((mapSetAll res entries).map Prod.fst).Nodup
  | [], res, h => h
  | kv :: entries, res, h =>
      mapSetAll_nodup entries (mapSet res kv.1 kv.2)
        (mapSet_nodup res kv.1 kv.2 h)

theorem flattenDotAux_nodup : ∀ (o : JObj) (pfx : String)
    (res : List (String × JVal)), (res.map Prod.fst).Nodup →
    ((flattenDotAux o pfx res).map Prod.fst).Nodup
  | .nil, pfx, res, h => by simpa [flattenDotAux] using h
  | .cons key v rest, pfx, res, h => by
      rw [show flattenDotAux (.cons key v rest) pfx res =
          flattenDotAux rest pfx (mapSetAll res
            (childDotEntries v (if pfx ≠ "" then pfx ++ "." ++ key else key)))
        from by simp [flattenDotAux]]
      exact flattenDotAux_nodup rest pfx _ (mapSetAll_nodup _ res h)

theorem flattenDot_nodup (T : JObj) (pfx : String) :
    ((flattenDot T pfx).map Prod.fst).Nodup := by
  rw [show flattenDot T pfx = flattenDotAux T pfx [] from by simp [flattenDot]]
  exact flattenDotAux_nodup T pfx [] (by simp)

theorem mem_mapGet : ∀ (m : List (String × JVal)) (p : String) (v : JVal),
    (m.map Prod.fst).Nodup → (p, v) ∈ m → mapGet m p = some v
  | [], p, v, _, hm => absurd hm (List.not_mem_nil _)
  | (k0, v0) :: rest, p, v, hnd, hm => by
      simp only [List.map_cons, List.nodup_cons] at hnd
      rcases List.mem_cons.mp hm with h | h
      · obtain ⟨h1, h2⟩ := Prod.mk.injEq .. ▸ h
        simp only [Prod.mk.injEq] at h
        simp [mapGet, h.1, h.2]
      · have hk : k0 ≠ p := by
          intro he
          subst he
          exact hnd.1 (List.mem_map.mpr ⟨(k0, v), h, rfl⟩)
        simp only [mapGet, if_neg hk]
        exact mem_mapGet rest p v hnd.2 h

/-- C8: `generateChangeSummary` returns exactly what the specification
describes — `added` the new-tree paths absent from the old flat map in
new-tree traversal order, `modified` the shared paths whose Leafs differ
in new-tree traversal order, `removed` the old-tree paths absent from
the new flat map in old-tree traversal order — and consequently the diff
of any tree against itself is empty in all three lists. -/
theorem change_summary_correct :
    (∀ oldT newT : JObj,
      generateChangeSummary oldT newT = changeSummarySpec oldT newT) ∧
    (∀ T : JObj, generateChangeSummary T T = ⟨[], [], []⟩) := by
  have hmain : ∀ oldT newT : JObj,
      generateChangeSummary oldT newT = changeSummarySpec oldT newT := by
    intro oldT newT
    simp only [generateChangeSummary, changeSummarySpec]
    rw [foldl_am (flattenDot oldT "") (flattenDot newT "") [] []]
    rw [foldl_removed (flattenDot newT "") (flattenDot oldT "") []]
    simp
  refine ⟨hmain, ?_⟩
  intro T
  rw [hmain T T]
  have hself : ∀ pv, pv ∈ flattenDot T "" →
      mapGet (flattenDot T "") pv.1 = some pv.2 := by
    intro pv hpv
    exact mem_mapGet (flattenDot T "") pv.1 pv.2 (flattenDot_nodup T "")
      (by simpa using hpv)
  have hadd : (flattenDot T "").filter
      (fun pv => (mapGet (flattenDot T "") pv.1).isNone) = [] := by
    apply List.filter_eq_nil_iff.mpr
    intro pv hpv
    simp [hself pv hpv]
  have hmod : (flattenDot T "").filter (fun pv =>
      match mapGet (flattenDot T "") pv.1 with
      | some w => w ≠ pv.2
      | none => false) = [] := by
    apply List.filter_eq_nil_iff.mpr
    intro pv hpv
    simp [hself pv hpv]
  simp only [changeSummarySpec, hadd, hmod, List.map_nil]

/-! ### Claim C9 — structural ambiguity handling -/

/-- C9 counterexample: the node at `a` owns both a `value` key and a
Group-shaped child `b`; flattening emits exactly its value record and
skips the child — but no warning is emitted anywhere in
`flattenTokens`. -/
theorem ambiguity_warning_cex :
    flattenTokens exAmbig "" = [⟨"a", .str "x", none, none⟩] ∧
      flattenWarnings exAmbig "" = [] :=
  ⟨by decide, rfl⟩

/-- C9 (amended): a node owning a `value` key is treated as a Leaf —
exactly one record is emitted at the node's path, carrying its `value`
(and `type`/`comment` when present), and none of its other children are
traversed — but no warning is emitted for the ambiguity. -/
theorem ambiguous_node_value_wins (o rest : JObj) (w : JVal)
    (key pfx : String) (h : o.get "value" = some w) :
    flattenTokens (.cons key (.obj o) rest) pfx =
        ⟨mkPath pfx key, w, o.get "type", o.get "comment"⟩ ::
          flattenTokens rest pfx ∧
      flattenWarnings (.cons key (.obj o) rest) pfx = [] := by
  constructor
  · simp [flattenTokens, childRecords, h]
  · rfl

/-- C9 witness: the law applied to the concrete ambiguous tree. -/
theorem ambiguous_node_value_wins_witness :
    (JObj.cons "value" (JVal.str "x")
        (.cons "b" (.obj (.cons "value" (.str "y") .nil)) .nil)).get "value" =
        some (.str "x") ∧
      (flattenTokens exAmbig "" =
          ⟨mkPath "" "a", .str "x",
            (JObj.cons "value" (JVal.str "x")
              (.cons "b" (.obj (.cons "value" (.str "y") .nil)) .nil)).get "type",
            (JObj.cons "value" (JVal.str "x")
              (.cons "b" (.obj (.cons "value" (.str "y") .nil)) .nil)).get "comment"⟩ ::
            flattenTokens .nil "" ∧
        flattenWarnings exAmbig "" = []) :=
  ⟨by decide,
    ambiguous_node_value_wins
      (.cons "value" (.str "x")
        (.cons "b" (.obj (.cons "value" (.str "y") .nil)) .nil))
      .nil (.str "x") "a" "" (by decide)⟩

/-! ### Claim C10 — color hex round trip -/

set_option maxRecDepth 100000 in
theorem hexpair_len : ∀ k : ℕ, k < 256 →
    (padStart2 (intToHexStr (k : ℤ))).data.length = 2 := by
  decide

set_option maxRecDepth 100000 in
theorem hexpair_parse : ∀ k : ℕ, k < 256 →
    jsParseIntHex (padStart2 (intToHexStr (k : ℤ))) = some (k : ℤ) := by
  decide

set_option maxRecDepth 100000 in
theorem hexpair_nospace : ∀ k : ℕ, k < 256 →
    ∀ c ∈ (padStart2 (intToHexStr (k : ℤ))).data, isJsSpace c = false := by
  decide

theorem grid_round (k : ℕ) : jsRound ((k : ℚ) / 255 * 255) = k := by
  have h : (k : ℚ) / 255 * 255 = k := by
    field_simp
  rw [jsRound, h]
  have h1 : ((k : ℤ) : ℚ) ≤ (k : ℚ) + 1 / 2 := by
    push_cast
    linarith
  have h2 : (k : ℚ) + 1 / 2 < (k : ℤ) + 1 := by
    push_cast
    linarith
  rw [Int.floor_eq_iff]
  exact ⟨h1, h2⟩

theorem dropWhile_eq_self_of (p : Char → Bool) (l : List Char)
    (h : ∀ c ∈ l, p c = false) : l.dropWhile p = l := by
  cases l with
  | nil => rfl
  | cons c rest =>
      rw [List.dropWhile_cons, if_neg (by simp [h c (by simp)])]

theorem trim_no_space (s : String)
    (h : ∀ c ∈ s.data, isJsSpace c = false) : jsTrim s = s := by
  unfold jsTrim
  rw [dropWhile_eq_self_of _ _ h]
  rw [dropWhile_eq_self_of _ _
    (fun c hc => h c (List.mem_reverse.mp hc))]
  rw [List.reverse_reverse]

theorem parse_hash_six (R G B : String) (kr kg kb : ℤ)
    (hRl : R.data.length = 2) (hGl : G.data.length = 2)
    (hBl : B.data.length = 2)
    (hRp : jsParseIntHex R = some kr) (hGp : jsParseIntHex G = some kg)
    (hBp : jsParseIntHex B = some kb)
    (hsp : ∀ c ∈ R.data ++ (G.data ++ B.data), isJsSpace c = false) :
    parseColor ("#" ++ R ++ G ++ B) =
      some ⟨(kr : ℚ) / 255, (kg : ℚ) / 255, (kb : ℚ) / 255, 1⟩ := by
  have hdata : ("#" ++ R ++ G ++ B).data =
      '#' :: (R.data ++ (G.data ++ B.data)) := by
    have h0 : ("#" : String).data = ['#'] := rfl
    simp [String.data_append, h0, List.append_assoc]
  have hspace : ∀ c ∈ ("#" ++ R ++ G ++ B).data, isJsSpace c = false := by
    intro c hc
    rw [hdata] at hc
    rcases List.mem_cons.mp hc with h | h
    · subst h
      decide
    · exact hsp c h
  have htrim : jsTrim ("#" ++ R ++ G ++ B) = "#" ++ R ++ G ++ B :=
    trim_no_space _ hspace
  have hlen : (R.data ++ (G.data ++ B.data)).length = 6 := by
    simp [hRl, hGl, hBl]
  have ht1 : (R.data ++ (G.data ++ B.data)).take 2 = R.data :=
    List.take_left' hRl
  have hd1 : (R.data ++ (G.data ++ B.data)).drop 2 = G.data ++ B.data :=
    List.drop_left' hRl
  have ht2 : (G.data ++ B.data).take 2 = G.data := List.take_left' hGl
  have hd4 : (R.data ++ (G.data ++ B.data)).drop 4 = B.data := by
    rw [← List.append_assoc]
    exact List.drop_left' (by simp [hRl, hGl])
  have ht3 : B.data.take 2 = B.data := by
    rw [← hBl, List.take_length]
  have hRp' : jsParseIntHex (String.mk R.data) = some kr := hRp
  have hGp' : jsParseIntHex (String.mk G.data) = some kg := hGp
  have hBp' : jsParseIntHex (String.mk B.data) = some kb := hBp
  simp only [parseColor, htrim, hdata]
  norm_num [hlen, ht1, hd1, ht2, hd4, ht3, hRp', hGp', hBp']

theorem parse_hash_eight (R G B A : String) (kr kg kb ka : ℤ)
    (hRl : R.data.length = 2) (hGl : G.data.length = 2)
    (hBl : B.data.length = 2) (hAl : A.data.length = 2)
    (hRp : jsParseIntHex R = some kr) (hGp : jsParseIntHex G = some kg)
    (hBp : jsParseIntHex B = some kb) (hAp : jsParseIntHex A = some ka)
    (hsp : ∀ c ∈ R.data ++ (G.data ++ (B.data ++ A.data)),
      isJsSpace c = false) :
    parseColor ("#" ++ R ++ G ++ B ++ A) =
      some ⟨(kr : ℚ) / 255, (kg : ℚ) / 255, (kb : ℚ) / 255,
        (ka : ℚ) / 255⟩ := by
  have hdata : ("#" ++ R ++ G ++ B ++ A).data =
      '#' :: (R.data ++ (G.data ++ (B.data ++ A.data))) := by
    have h0 : ("#" : String).data = ['#'] := rfl
    simp [String.data_append, h0, List.append_assoc]
  have hspace : ∀ c ∈ ("#" ++ R ++ G ++ B ++ A).data,
      isJsSpace c = false := by
    intro c hc
    rw [hdata] at hc
    rcases List.mem_cons.mp hc with h | h
    · subst h
      decide
    · exact hsp c h
  have htrim : jsTrim ("#" ++ R ++ G ++ B ++ A) = "#" ++ R ++ G ++ B ++ A :=
    trim_no_space _ hspace
  have hlen : (R.data ++ (G.data ++ (B.data ++ A.data))).length = 8 := by
    simp [hRl, hGl, hBl, hAl]
  have ht1 : (R.data ++ (G.data ++ (B.data ++ A.data))).take 2 = R.data :=
    List.take_left' hRl
  have hd1 : (R.data ++ (G.data ++ (B.data ++ A.data))).drop 2 =
      G.data ++ (B.data ++ A.data) := List.drop_left' hRl
  have ht2 : (G.data ++ (B.data ++ A.data)).take 2 = G.data :=
    List.take_left' hGl
  have hd4 : (R.data ++ (G.data ++ (B.data ++ A.data))).drop 4 =
      B.data ++ A.data := by
    rw [← List.append_assoc]
    exact List.drop_left' (by simp [hRl, hGl])
  have ht3 : (B.data ++ A.data).take 2 = B.data := List.take_left' hBl
  have hd6 : (R.data ++ (G.data ++ (B.data ++ A.data))).drop 6 = A.data := by
    rw [← List.append_assoc, ← List.append_assoc]
    exact List.drop_left' (by simp [hRl, hGl, hBl])
  have ht4 : A.data.take 2 = A.data := by
    rw [← hAl, List.take_length]
  have hRp' : jsParseIntHex (String.mk R.data) = some kr := hRp
  have hGp' : jsParseIntHex (String.mk G.data) = some kg := hGp
  have hBp' : jsParseIntHex (String.mk B.data) = some kb := hBp
  have hAp' : jsParseIntHex (String.mk A.data) = some ka := hAp
  simp only [parseColor, htrim, hdata]
  norm_num [hlen, ht1, hd1, ht2, hd4, ht3, hd6, ht4, hRp', hGp', hBp', hAp']

/-- C10: parsing a produced hex string recovers a byte-grid color exactly:
for channels `k/255` with `k ∈ 0..255`, `parseColor (rgbaToHex c) = c`,
in both the opaque 6-digit case (`a = 1`) and the translucent 8-digit
case (`a < 1`). -/
theorem color_hex_round_trip (kr kg kb ka : ℕ) (hr : kr ≤ 255)
    (hg : kg ≤ 255) (hb : kb ≤ 255) (ha : ka ≤ 255) :
    parseColor (rgbaToHex
        ⟨(kr : ℚ) / 255, (kg : ℚ) / 255, (kb : ℚ) / 255, (ka : ℚ) / 255⟩) =
      some ⟨(kr : ℚ) / 255, (kg : ℚ) / 255, (kb : ℚ) / 255, (ka : ℚ) / 255⟩ := by
  have hr' : kr < 256 := by omega
  have hg' : kg < 256 := by omega
  have hb' : kb < 256 := by omega
  have ha' : ka < 256 := by omega
  have hhex : rgbaToHex
      ⟨(kr : ℚ) / 255, (kg : ℚ) / 255, (kb : ℚ) / 255, (ka : ℚ) / 255⟩ =
      (if (ka : ℚ) / 255 < 1 then
        "#" ++ padStart2 (intToHexStr (kr : ℤ)) ++
          padStart2 (intToHexStr (kg : ℤ)) ++
          padStart2 (intToHexStr (kb : ℤ)) ++
          padStart2 (intToHexStr (ka : ℤ))
       else
        "#" ++ padStart2 (intToHexStr (kr : ℤ)) ++
          padStart2 (intToHexStr (kg : ℤ)) ++
          padStart2 (intToHexStr (kb : ℤ))) := by
    simp only [rgbaToHex, grid_round]
  by_cases hka : ka = 255
  · subst hka
    have h1 : ((255 : ℕ) : ℚ) / 255 = 1 := by norm_num
    rw [hhex, if_neg (by rw [h1]; exact lt_irrefl 1)]
    have h := parse_hash_six (padStart2 (intToHexStr (kr : ℤ)))
      (padStart2 (intToHexStr (kg : ℤ))) (padStart2 (intToHexStr (kb : ℤ)))
      (kr : ℤ) (kg : ℤ) (kb : ℤ)
      (hexpair_len kr hr') (hexpair_len kg hg') (hexpair_len kb hb')
      (hexpair_parse kr hr') (hexpair_parse kg hg') (hexpair_parse kb hb')
      (by
        intro c hc
        rcases List.mem_append.mp hc with h | h
        · exact hexpair_nospace kr hr' c h
        · rcases List.mem_append.mp h with h | h
          · exact hexpair_nospace kg hg' c h
          · exact hexpair_nospace kb hb' c h)
    rw [h, h1]
    push_cast
    rfl
  · have hlt : (ka : ℚ) / 255 < 1 := by
      rw [div_lt_one (by norm_num)]
      exact_mod_cast lt_of_le_of_ne ha hka
    rw [hhex, if_pos hlt]
    have h := parse_hash_eight (padStart2 (intToHexStr (kr : ℤ)))
      (padStart2 (intToHexStr (kg : ℤ))) (padStart2 (intToHexStr (kb : ℤ)))
      (padStart2 (intToHexStr (ka : ℤ)))
      (kr : ℤ) (kg : ℤ) (kb : ℤ) (ka : ℤ)
      (hexpair_len kr hr') (hexpair_len kg hg') (hexpair_len kb hb')
      (hexpair_len ka ha')
      (hexpair_parse kr hr') (hexpair_parse kg hg') (hexpair_parse kb hb')
      (hexpair_parse ka ha')
      (by
        intro c hc
        rcases List.mem_append.mp hc with h | h
        · exact hexpair_nospace kr hr' c h
        · rcases List.mem_append.mp h with h | h
          · exact hexpair_nospace kg hg' c h
          · rcases List.mem_append.mp h with h | h
            · exact hexpair_nospace kb hb' c h
            · exact hexpair_nospace ka ha' c h)
    rw [h]
    push_cast
    rfl

/-- C10 witness: the round trip at `#123456` (opaque) and `#12345680`
(translucent). -/
theorem color_hex_round_trip_witness :
    parseColor (rgbaToHex
        ⟨(18 : ℚ) / 255, (52 : ℚ) / 255, (86 : ℚ) / 255, (255 : ℚ) / 255⟩) =
      some ⟨(18 : ℚ) / 255, (52 : ℚ) / 255, (86 : ℚ) / 255,
        (255 : ℚ) / 255⟩ ∧
    parseColor (rgbaToHex
        ⟨(18 : ℚ) / 255, (52 : ℚ) / 255, (86 : ℚ) / 255, (128 : ℚ) / 255⟩) =
      some ⟨(18 : ℚ) / 255, (52 : ℚ) / 255, (86 : ℚ) / 255,
        (128 : ℚ) / 255⟩ := by
  constructor
  · have h := color_hex_round_trip 18 52 86 255 (by decide) (by decide)
      (by decide) (by decide)
    push_cast at h
    exact h
  · have h := color_hex_round_trip 18 52 86 128 (by decide) (by decide)
      (by decide) (by decide)
    push_cast at h
    exact h

end FTS
